import Mathlib

/-!
Verification development for the Abalone rules engine (`board.py`) and AI
search engine (`ai_engine.py`): a shallow embedding of the Python source in
Lean 4, followed by theorems about the embedded definitions.

Conventions of the embedding:
* A Python dict `{(q, r): Piece}` is an association list with unique keys;
  `dictGet`, `dictSet`, `dictDel` mirror `d.get(k)`, `d[k] = v`, `del d[k]`.
* Code that can raise a `KeyError` (`self.grid[head]`, `del self.grid[k]`)
  is embedded in `Option` / an explicit error constructor: `none` (or
  `.err`) marks a raised exception.
* Machine integers are `Int` / `Nat` (Python ints are unbounded, so no
  wrap-around modelling is needed); heuristic scores are `Rat` (Python
  floats appear only as `x.5` values produced by `0.5` increments, which
  rationals represent exactly).
-/

namespace Abalone

/-- Axial hex coordinate `(q, r)`. -/
abbrev Coord := Int × Int

/-- Marble colour, `'B'` / `'W'` in the source. -/
inductive Color
  | B
  | W
deriving DecidableEq, Repr

/-- `class Piece`: a piece carries only its colour. -/
structure Piece where
  color : Color
deriving DecidableEq, Repr

/-- `DIRECTIONS = [(1, 0), (1, -1), (0, -1), (-1, 0), (-1, 1), (0, 1)]` -/
def DIRECTIONS : List Coord := [(1, 0), (1, -1), (0, -1), (-1, 0), (-1, 1), (0, 1)]

/-- The grid dict `{(q, r): Piece}` as an association list. -/
abbrev Grid := List (Coord × Piece)

/-- `grid.get(k)`: first entry with key `k`, if any. -/
def dictGet (g : Grid) (k : Coord) : Option Piece :=
  match g with
  | [] => none
  | (k2, p) :: rest => if k2 = k then some p else dictGet rest k

/-- `grid[k] = v`: overwrite the entry in place, or append a new one. -/
def dictSet (g : Grid) (k : Coord) (v : Piece) : Grid :=
  match g with
  | [] => [(k, v)]
  | (k2, p) :: rest => if k2 = k then (k2, v) :: rest else (k2, p) :: dictSet rest k v

/-- `del grid[k]`: drop the first entry with key `k` (a dict has at most one). -/
def dictDel (g : Grid) (k : Coord) : Grid :=
  match g with
  | [] => []
  | (k2, p) :: rest => if k2 = k then rest else (k2, p) :: dictDel rest k

/-- A dict never holds two entries with the same key. -/
def NodupKeys (g : Grid) : Prop := (g.map Prod.fst).Nodup

instance (g : Grid) : Decidable (NodupKeys g) :=
  inferInstanceAs (Decidable ((g.map Prod.fst).Nodup))

/-- `class Board`: occupancy dict, current selection, two score counters. -/
structure Board where
  grid : Grid
  selected : List Coord
  black_score : Nat
  white_score : Nat
deriving DecidableEq, Repr

/-- `max(abs(nq), abs(nr), abs(-nq-nr)) <= 4`: the 61-cell radius-4 board. -/
def isValidCell (c : Coord) : Bool :=
  decide (max c.1.natAbs (max c.2.natAbs (-c.1 - c.2).natAbs) ≤ 4)

/-- `add_piece`. -/
def add_piece (b : Board) (q r : Int) (color : Color) : Board :=
  { b with grid := dictSet b.grid (q, r) ⟨color⟩ }

/-- Python `range(lo, hi)` over `Int`. -/
def intRange (lo hi : Int) : List Int :=
  (List.range (hi - lo).toNat).map (fun i => lo + i)

/-- `Board.init_board`: the standard layout, 14 white and 14 black marbles.
Scores are untouched, exactly as in the source (`main.py` zeroes them
separately). -/
def init_board (b : Board) : Board :=
  let b0 := { b with grid := [] }
  let b1 := (intRange 0 5).foldl (fun bb q => add_piece bb q (-4) .W) b0
  let b2 := (intRange (-1) 5).foldl (fun bb q => add_piece bb q (-3) .W) b1
  let b3 := (intRange 0 3).foldl (fun bb q => add_piece bb q (-2) .W) b2
  let b4 := (intRange (-4) 1).foldl (fun bb q => add_piece bb q 4 .B) b3
  let b5 := (intRange (-4) 2).foldl (fun bb q => add_piece bb q 3 .B) b4
  (intRange (-2) 1).foldl (fun bb q => add_piece bb q 2 .B) b5

/-- `Board()` then `init_board()`: the game's starting state. -/
def initialBoard : Board := init_board ⟨[], [], 0, 0⟩

/-- Move classification tag, `'inline'` / `'broadside'`. -/
inductive MType
  | inline
  | broadside
deriving DecidableEq, Repr

/-- The `move_data` dict produced by the validator. -/
structure MoveData where
  type : MType
  dir : Coord
  marbles : List Coord
  push_opponent : List Coord
deriving DecidableEq, Repr

/-- Result of `validate_move`: a raised `KeyError` (`self.grid[head]` on a
missing head while the target is occupied), `None`, or a move dict. -/
inductive VResult
  | err
  | invalid
  | valid (m : MoveData)
deriving DecidableEq, Repr

/-- Step 1 of `validate_move`: scan `selected` in order, and for each marble
the six `DIRECTIONS` in order; the first `(d, marble)` with
`marble + d == target` wins. -/
def findAdj (selected : List Coord) (target : Coord) : Option (Coord × Coord) :=
  match selected with
  | [] => none
  | s :: rest =>
    match DIRECTIONS.find? (fun d => decide (s + d = target)) with
    | some d => some (d, s)
    | none => findAdj rest target

/-- Python tuple order on `(q, r)` pairs, as used by `sorted(selected)`. -/
def coordLe (a b : Coord) : Bool :=
  decide (a.1 < b.1 ∨ (a.1 = b.1 ∧ a.2 ≤ b.2))

/-- Insertion step of `sortCoords`. -/
def insertSorted (x : Coord) : List Coord → List Coord
  | [] => [x]
  | y :: ys => if coordLe x y then x :: y :: ys else y :: insertSorted x ys

/-- `sorted(selected)` (equal coordinates are identical, so stability is
irrelevant). -/
def sortCoords : List Coord → List Coord
  | [] => []
  | x :: xs => insertSorted x (sortCoords xs)

/-- Consistency check: each consecutive delta of the sorted selection equals
`d1` (the loop `for i in range(2, len(sorted_sel))`). -/
def deltasOk : List Coord → Coord → Bool
  | a :: b :: rest, d1 => decide (b - a = d1) && deltasOk (b :: rest) d1
  | _, _ => true

/-- The multi-marble `is_line` check: the sorted selection must advance by a
constant delta `d1 ∈ DIRECTIONS`. Returns `some d1` iff `is_line`. -/
def lineCheckMulti (selected : List Coord) : Option Coord :=
  match sortCoords selected with
  | a :: b :: rest =>
    if b - a ∈ DIRECTIONS ∧ deltasOk (b :: rest) (b - a) = true then some (b - a)
    else none
  | _ => none

/-- The `is_line` / `line_dir` computation: a single marble is a line whose
direction is the move direction. Returns `some line_dir` iff `is_line`. -/
def lineDirOf (selected : List Coord) (d : Coord) : Option Coord :=
  if selected.length > 1 then lineCheckMulti selected else some d

/-- The chain walk of the inline branch: from the head step `len(selected)-1`
times against the move direction, requiring each predecessor to be in the
selection. -/
def buildChain (selected : List Coord) (d : Coord) : Nat → Coord → List Coord →
    Option (List Coord)
  | 0, _, acc => some acc
  | Nat.succ n, curr, acc =>
    if curr - d ∈ selected then buildChain selected d n (curr - d) (acc ++ [curr - d])
    else none

/-- The sumito trace: follow cells holding pieces of colour `≠ hc` from the
target in the move direction; returns the opposing chain and the cell the
loop stopped at (`behind_last`). The source's `while True` loop visits
pairwise-distinct cells, each (except the last) occupied, so
`g.length + 1` units of fuel always suffice. -/
def traceOpp (g : Grid) (hc : Color) (d : Coord) : Nat → Coord → List Coord →
    List Coord × Coord
  | 0, curr, acc => (acc, curr)
  | Nat.succ n, curr, acc =>
    match dictGet g curr with
    | some p =>
      if p.color ≠ hc then traceOpp g hc d n (curr + d) (acc ++ [curr])
      else (acc, curr)
    | none => (acc, curr)

/-- `Board.validate_move(selected, target_q, target_r)`. -/
def validate_move (b : Board) (selected : List Coord) (target : Coord) : VResult :=
  if selected = [] then .invalid
  else
    match findAdj selected target with
    | none => .invalid
    | some (d, neighbor_of) =>
      match lineDirOf selected d with
      | none => .invalid
      | some line_dir =>
        if selected.length > 1 ∧ d ≠ line_dir ∧ d ≠ -line_dir then
          if selected.any (fun s => (dictGet b.grid (s + d)).isSome) then .invalid
          else .valid ⟨.broadside, d, selected, []⟩
        else
          match buildChain selected d (selected.length - 1) neighbor_of [neighbor_of] with
          | none => .invalid
          | some chain =>
            match dictGet b.grid target with
            | none => .valid ⟨.inline, d, chain, []⟩
            | some target_piece =>
              match dictGet b.grid neighbor_of with
              | none => .err
              | some head_piece =>
                if target_piece.color = head_piece.color then .invalid
                else
                  let (opponent_chain, behind_last) :=
                    traceOpp b.grid head_piece.color d (b.grid.length + 1) target []
                  if chain.length ≤ opponent_chain.length then .invalid
                  else if chain.length > 3 then .invalid
                  else if (dictGet b.grid behind_last).isSome then .invalid
                  else .valid ⟨.inline, d, chain, opponent_chain⟩

/-- Phase 1 of `apply_move`: pop each moving marble off the grid, recording
`(piece, position + direction)`; a missing key is a raised `KeyError`. -/
def removePhase (d : Coord) : Grid → List Coord → List (Piece × Coord) →
    Option (Grid × List (Piece × Coord))
  | g, [], acc => some (g, acc)
  | g, x :: rest, acc =>
    match dictGet g x with
    | none => none
    | some p => removePhase d (dictDel g x) rest (acc ++ [(p, x + d)])

/-- Phase 2 of `apply_move`: put each piece at its destination when it is on
the valid board, otherwise credit the opposing colour's score. -/
def placePhase : Grid → Nat → Nat → List (Piece × Coord) → Grid × Nat × Nat
  | g, bs, ws, [] => (g, bs, ws)
  | g, bs, ws, (p, n) :: rest =>
    if isValidCell n then placePhase (dictSet g n p) bs ws rest
    else
      match p.color with
      | .B => placePhase g bs (ws + 1) rest
      | .W => placePhase g (bs + 1) ws rest

/-- The winner check at the end of `apply_move`. -/
def winnerOf (ws bs : Nat) : Option Color :=
  if ws ≥ 6 then some .W else if bs ≥ 6 then some .B else none

/-- `Board.apply_move(move_data)`: returns the updated board and the winner
report, or `none` for a raised `KeyError`. -/
def apply_move (b : Board) (m : MoveData) : Option (Board × Option Color) :=
  match removePhase m.dir b.grid (m.marbles ++ m.push_opponent) [] with
  | none => none
  | some (g1, ptm) =>
    let (g2, bs, ws) := placePhase g1 b.black_score b.white_score ptm
    some ({ b with grid := g2, black_score := bs, white_score := ws }, winnerOf ws bs)

/-- `list.remove(x)`: drop the first occurrence. -/
def listEraseCoord : List Coord → Coord → List Coord
  | [], _ => []
  | x :: xs, c => if x = c then xs else x :: listEraseCoord xs c

/-- Case 2 of `handle_click` (clicked empty or opponent): try the move. -/
def handleClickMoveCase (b : Board) (c : Coord) : Option (Board × Bool) :=
  if b.selected ≠ [] then
    match validate_move b b.selected c with
    | .valid m =>
      match apply_move b m with
      | some (b2, _) => some ({ b2 with selected := [] }, true)
      | none => none
    | .invalid => some ({ b with selected := [] }, false)
    | .err => none
  else some (b, false)

/-- `Board.handle_click(q, r, current_turn_color)`: returns the updated board
and whether a move was made (`none` for a raised exception). -/
def handle_click (b : Board) (c : Coord) (current_turn_color : Color) :
    Option (Board × Bool) :=
  match dictGet b.grid c with
  | some piece =>
    if piece.color = current_turn_color then
      if c ∈ b.selected then
        some ({ b with selected := listEraseCoord b.selected c }, false)
      else
        let sel0 := if b.selected.length ≥ 3 then [] else b.selected
        some ({ b with selected := sel0 ++ [c] }, false)
    else handleClickMoveCase b c
  | none => handleClickMoveCase b c

end Abalone


namespace Abalone

/-! ### Dictionary lemmas -/

theorem dictGet_dictSet_self (g : Grid) (k : Coord) (v : Piece) :
    dictGet (dictSet g k v) k = some v := by
  induction g with
  | nil => simp [dictSet, dictGet]
  | cons e rest ih =>
    obtain ⟨k2, p⟩ := e
    by_cases h : k2 = k
    · simp [dictSet, dictGet, h]
    · simp [dictSet, dictGet, h, ih]

theorem dictGet_dictSet_ne (g : Grid) (k k2 : Coord) (v : Piece) (h : k2 ≠ k) :
    dictGet (dictSet g k v) k2 = dictGet g k2 := by
  induction g with
  | nil => simp [dictSet, dictGet, Ne.symm h]
  | cons e rest ih =>
    obtain ⟨k3, p⟩ := e
    by_cases h3 : k3 = k
    · subst h3
      simp [dictSet, dictGet, Ne.symm h]
    · simp only [dictSet, if_neg h3]
      by_cases h4 : k3 = k2
      · simp [dictGet, h4]
      · simp [dictGet, h4, ih]

theorem dictGet_dictDel_ne (g : Grid) (k k2 : Coord) (h : k2 ≠ k) :
    dictGet (dictDel g k) k2 = dictGet g k2 := by
  induction g with
  | nil => simp [dictDel]
  | cons e rest ih =>
    obtain ⟨k3, p⟩ := e
    by_cases h3 : k3 = k
    · subst h3
      simp [dictDel, dictGet, Ne.symm h]
    · simp only [dictDel, if_neg h3]
      by_cases h4 : k3 = k2
      · simp [dictGet, h4]
      · simp [dictGet, h4, ih]

theorem keys_not_mem_dictGet (g : Grid) (k : Coord) (h : k ∉ g.map Prod.fst) :
    dictGet g k = none := by
  induction g with
  | nil => simp [dictGet]
  | cons e rest ih =>
    obtain ⟨k2, p⟩ := e
    simp only [List.map_cons, List.mem_cons] at h
    push_neg at h
    simp [dictGet, Ne.symm h.1, ih h.2]

theorem mem_keys_dictGet_isSome (g : Grid) (k : Coord) (h : k ∈ g.map Prod.fst) :
    (dictGet g k).isSome := by
  induction g with
  | nil => simp at h
  | cons e rest ih =>
    obtain ⟨k2, p⟩ := e
    by_cases h2 : k2 = k
    · simp [dictGet, h2]
    · simp only [List.map_cons, List.mem_cons] at h
      rcases h with h | h
      · exact absurd h.symm h2
      · simp [dictGet, h2, ih h]

theorem dictGet_dictDel_self (g : Grid) (k : Coord) (hnk : NodupKeys g) :
    dictGet (dictDel g k) k = none := by
  induction g with
  | nil => simp [dictDel, dictGet]
  | cons e rest ih =>
    obtain ⟨k2, p⟩ := e
    simp only [NodupKeys, List.map_cons, List.nodup_cons] at hnk
    by_cases h : k2 = k
    · subst h
      simp only [dictDel, if_pos rfl]
      exact keys_not_mem_dictGet rest _ hnk.1
    · simp [dictDel, dictGet, h, ih hnk.2]

theorem length_dictDel (g : Grid) (k : Coord) (h : (dictGet g k).isSome) :
    (dictDel g k).length + 1 = g.length := by
  induction g with
  | nil => simp [dictGet] at h
  | cons e rest ih =>
    obtain ⟨k2, p⟩ := e
    by_cases h2 : k2 = k
    · simp [dictDel, h2]
    · simp only [dictGet, if_neg h2] at h
      simp [dictDel, h2, ih h]

theorem keys_dictDel_sublist (g : Grid) (k : Coord) :
    ((dictDel g k).map Prod.fst).Sublist (g.map Prod.fst) := by
  induction g with
  | nil => simp [dictDel]
  | cons e rest ih =>
    obtain ⟨k2, p⟩ := e
    by_cases h : k2 = k
    · simp only [dictDel, if_pos h, List.map_cons]
      exact List.sublist_cons_self k2 (rest.map Prod.fst)
    · simp only [dictDel, if_neg h, List.map_cons]
      exact ih.cons₂ k2

theorem nodupKeys_dictDel (g : Grid) (k : Coord) (hnk : NodupKeys g) :
    NodupKeys (dictDel g k) :=
  (keys_dictDel_sublist g k).nodup hnk

theorem keys_dictSet_of_none (g : Grid) (k : Coord) (v : Piece)
    (h : dictGet g k = none) :
    (dictSet g k v).map Prod.fst = g.map Prod.fst ++ [k] := by
  induction g with
  | nil => simp [dictSet]
  | cons e rest ih =>
    obtain ⟨k2, p⟩ := e
    by_cases h2 : k2 = k
    · simp [dictGet, h2] at h
    · simp only [dictGet, if_neg h2] at h
      simp [dictSet, h2, ih h]

theorem nodupKeys_dictSet_of_none (g : Grid) (k : Coord) (v : Piece)
    (hnk : NodupKeys g) (h : dictGet g k = none) :
    NodupKeys (dictSet g k v) := by
  unfold NodupKeys
  rw [keys_dictSet_of_none g k v h]
  refine List.Nodup.append hnk (List.nodup_singleton k) ?_
  intro a ha hb
  simp only [List.mem_singleton] at hb
  subst hb
  have h2 := mem_keys_dictGet_isSome g a ha
  rw [h] at h2
  simp at h2

theorem length_dictSet_of_none (g : Grid) (k : Coord) (v : Piece)
    (h : dictGet g k = none) :
    (dictSet g k v).length = g.length + 1 := by
  induction g with
  | nil => simp [dictSet]
  | cons e rest ih =>
    obtain ⟨k2, p⟩ := e
    by_cases h2 : k2 = k
    · simp [dictGet, h2] at h
    · simp only [dictGet, if_neg h2] at h
      simp [dictSet, h2, ih h]

end Abalone

namespace Abalone

/-! ### C9: a broadside move whose destinations are off the board -/

/-- Three black marbles on the bottom edge row `r = 4`. -/
def b9 : Board := ⟨[((-2, 4), ⟨.B⟩), ((-1, 4), ⟨.B⟩), ((0, 4), ⟨.B⟩)], [], 0, 0⟩

def sel9 : List Coord := [(-2, 4), (-1, 4), (0, 4)]

def m9 : MoveData := ⟨.broadside, (0, 1), sel9, []⟩

/-- C9: there is a board and a broadside selection whose destination cells all
lie off the valid board, yet `validate_move` accepts the move (the emptiness
check only tests grid membership); applying it ejects all three of the
mover's own marbles and credits the opposing colour's score once each. -/
theorem C9_broadside_offboard_capture :
    validate_move b9 sel9 (-2, 5) = .valid m9 ∧
    m9.marbles.all (fun s => !isValidCell (s + m9.dir)) = true ∧
    apply_move b9 m9 = some (⟨[], [], 0, 3⟩, none) ∧
    (3 : Nat) = b9.white_score + 3 ∧ ([] : Grid).length = 0 := by
  decide

/-! ### C10: `handle_click` selection handling -/

theorem length_listEraseCoord_le (l : List Coord) (c : Coord) :
    (listEraseCoord l c).length ≤ l.length := by
  induction l with
  | nil => simp [listEraseCoord]
  | cons x xs ih =>
    by_cases h : x = c
    · simp [listEraseCoord, h]
    · simp only [listEraseCoord, if_neg h, List.length_cons]
      omega

theorem not_mem_listEraseCoord (l : List Coord) (c : Coord) (hnd : l.Nodup) :
    c ∉ listEraseCoord l c := by
  induction l with
  | nil => simp [listEraseCoord]
  | cons x xs ih =>
    simp only [List.nodup_cons] at hnd
    by_cases h : x = c
    · subst h
      simp only [listEraseCoord, if_pos rfl]
      exact hnd.1
    · simp only [listEraseCoord, if_neg h, List.mem_cons]
      push_neg
      exact ⟨Ne.symm h, ih hnd.2⟩

/-- The selection `handle_click` leaves behind when an own-colour piece is
clicked (mirrors the source's select/deselect branch). -/
def newSel (b : Board) (c : Coord) : List Coord :=
  if c ∈ b.selected then listEraseCoord b.selected c
  else (if b.selected.length ≥ 3 then [] else b.selected) ++ [c]

/-- C10: clicking an own-colour piece only toggles the selection — the board's
grid and scores are untouched and no move is made (`false` is returned) — the
selection stays capped at 3, clicking a selected piece removes it, and
clicking an unselected piece while 3 are selected resets the selection to
just the clicked piece. -/
theorem C10_handle_click_selection (b : Board) (c : Coord) (turn : Color) (p : Piece)
    (hp : dictGet b.grid c = some p) (hcol : p.color = turn)
    (hlen : b.selected.length ≤ 3) (hnd : b.selected.Nodup) :
    handle_click b c turn = some ({ b with selected := newSel b c }, false) ∧
    (newSel b c).length ≤ 3 ∧
    (c ∈ b.selected → c ∉ newSel b c) ∧
    (c ∉ b.selected → c ∈ newSel b c) ∧
    (c ∉ b.selected → 3 ≤ b.selected.length → newSel b c = [c]) := by
  refine ⟨?_, ?_, ?_, ?_, ?_⟩
  · simp only [handle_click, hp, hcol, if_pos rfl, newSel]
    by_cases hmem : c ∈ b.selected
    · simp [hmem]
    · simp [hmem]
  · unfold newSel
    by_cases hmem : c ∈ b.selected
    · simp only [if_pos hmem]
      exact le_trans (length_listEraseCoord_le _ _) hlen
    · simp only [if_neg hmem]
      by_cases h3 : b.selected.length ≥ 3
      · simp [h3]
      · simp only [if_neg h3, List.length_append, List.length_singleton]
        omega
  · intro hmem
    simp only [newSel, if_pos hmem]
    exact not_mem_listEraseCoord _ _ hnd
  · intro hmem
    simp [newSel, if_neg hmem]
  · intro hmem h3
    have h3b : b.selected.length ≥ 3 := h3
    simp [newSel, if_neg hmem, if_pos h3b]

def b10 : Board := ⟨[((0, 0), ⟨.B⟩)], [(1, 1), (2, 2), (3, 3)], 0, 0⟩

theorem C10_witness :
    handle_click b10 (0, 0) .B = some ({ b10 with selected := [(0, 0)] }, false) := by
  have h := C10_handle_click_selection b10 (0, 0) .B ⟨.B⟩ (by decide) rfl (by decide)
    (by decide)
  have h5 : newSel b10 (0, 0) = [(0, 0)] := h.2.2.2.2 (by decide) (by decide)
  rw [h.1, h5]

end Abalone

namespace Abalone

/-! ### C7: the validator returns a move or invalid, never an exception -/

theorem findAdj_eq_none_iff (sel : List Coord) (t : Coord) :
    findAdj sel t = none ↔ ∀ s ∈ sel, ∀ d ∈ DIRECTIONS, s + d ≠ t := by
  induction sel with
  | nil => simp [findAdj]
  | cons s rest ih =>
    unfold findAdj
    split
    next d hf =>
      have hst : s + d = t := by
        have h2 := List.find?_some hf
        simpa using h2
      have hd : d ∈ DIRECTIONS := List.mem_of_find?_eq_some hf
      simp only [List.mem_cons]
      constructor
      · intro h
        exact absurd h (by simp)
      · intro hall
        exact absurd hst (hall s (Or.inl rfl) d hd)
    next hf =>
      rw [ih]
      constructor
      · intro hall s2 hs2 d hd
        simp only [List.mem_cons] at hs2
        rcases hs2 with rfl | hs2
        · have h2 := List.find?_eq_none.mp hf d hd
          simpa using h2
        · exact hall s2 hs2 d hd
      · intro hall s2 hs2 d hd
        exact hall s2 (List.mem_cons_of_mem s hs2) d hd

theorem findAdj_some (sel : List Coord) (t d s : Coord)
    (h : findAdj sel t = some (d, s)) : s ∈ sel ∧ d ∈ DIRECTIONS ∧ s + d = t := by
  induction sel with
  | nil => simp [findAdj] at h
  | cons s2 rest ih =>
    unfold findAdj at h
    split at h
    next d2 hf =>
      simp only [Option.some.injEq, Prod.mk.injEq] at h
      obtain ⟨rfl, rfl⟩ := h
      have hst : s2 + d2 = t := by
        have h2 := List.find?_some hf
        simpa using h2
      exact ⟨List.mem_cons_self s2 rest, List.mem_of_find?_eq_some hf, hst⟩
    next hf =>
      obtain ⟨h1, h2, h3⟩ := ih h
      exact ⟨List.mem_cons_of_mem s2 h1, h2, h3⟩

/-- The only way `validate_move` raises is the `self.grid[head]` lookup on an
unoccupied head marble while the target cell is occupied. -/
theorem validate_move_err_imp (b : Board) (sel : List Coord) (t : Coord)
    (h : validate_move b sel t = .err) :
    ∃ d nb, findAdj sel t = some (d, nb) ∧ nb ∈ sel ∧ dictGet b.grid nb = none := by
  unfold validate_move at h
  split at h
  · simp at h
  next hne =>
    split at h
    · simp at h
    next d nb hadj =>
      refine ⟨d, nb, hadj, (findAdj_some sel t d nb hadj).1, ?_⟩
      split at h
      · simp at h
      next ld hld =>
        split at h
        · split at h <;> simp at h
        · split at h
          · simp at h
          next chain hbc =>
            split at h
            · simp at h
            next tp hgt =>
              split at h
              next hgn => exact hgn
              next hp hgn =>
                exfalso
                split at h
                · simp at h
                · split at h
                  split at h
                  · simp at h
                  · split at h
                    · simp at h
                    · split at h
                      · simp at h
                      · simp at h

/-- C7: for a non-empty selection of up to 3 own-colour occupied cells and any
target, `validate_move` never raises; it returns invalid when the target is
not adjacent to any selected marble, and invalid when a multi-marble
selection fails the sorted constant-delta line check. -/
theorem C7_validator_total (b : Board) (sel : List Coord) (t : Coord) (c : Color)
    (hne : sel ≠ []) (_hlen : sel.length ≤ 3)
    (hocc : ∀ p ∈ sel, dictGet b.grid p = some ⟨c⟩) :
    validate_move b sel t ≠ .err ∧
    ((∀ s ∈ sel, ∀ d ∈ DIRECTIONS, s + d ≠ t) → validate_move b sel t = .invalid) ∧
    (1 < sel.length → lineCheckMulti sel = none → validate_move b sel t = .invalid) := by
  refine ⟨?_, ?_, ?_⟩
  · intro h
    obtain ⟨d, nb, _, hnb, hnone⟩ := validate_move_err_imp b sel t h
    rw [hocc nb hnb] at hnone
    cases hnone
  · intro hall
    have hfa : findAdj sel t = none := (findAdj_eq_none_iff sel t).mpr hall
    simp [validate_move, hne, hfa]
  · intro h1 hlcm
    cases hadj : findAdj sel t with
    | none => simp [validate_move, hne, hadj]
    | some pr =>
      obtain ⟨d, nb⟩ := pr
      have hld : lineDirOf sel d = none := by
        simp [lineDirOf, h1, hlcm]
      simp [validate_move, hne, hadj, hld]

def b7 : Board := ⟨[((0, 0), ⟨.B⟩), ((1, 1), ⟨.B⟩)], [], 0, 0⟩

def sel7 : List Coord := [(0, 0), (1, 1)]

theorem C7_witness :
    validate_move b7 sel7 (1, 0) ≠ .err ∧ validate_move b7 sel7 (1, 0) = .invalid := by
  have h := C7_validator_total b7 sel7 (1, 0) .B (by decide) (by decide) (by decide)
  exact ⟨h.1, h.2.2 (by decide) (by decide)⟩

end Abalone

namespace Abalone

/-! ### C1: sumito legality for inline moves onto an opponent piece -/

/-- C1: whenever `validate_move` reaches the inline branch with the target
cell held by an opposite-colour piece (the hypotheses pin down exactly that
code path), the result is the push move iff the mover's chain is strictly
longer than the traced opposing chain, the mover's chain has length at most
3, and the cell just beyond the opposing chain is unoccupied (an off-board
cell is never in the grid, so it counts as unoccupied). -/
theorem C1_sumito_iff (b : Board) (sel : List Coord) (t d head ld : Coord)
    (chain : List Coord) (tp hp : Piece)
    (hne : sel ≠ [])
    (hadj : findAdj sel t = some (d, head))
    (hld : lineDirOf sel d = some ld)
    (hbr : ¬(sel.length > 1 ∧ d ≠ ld ∧ d ≠ -ld))
    (hbc : buildChain sel d (sel.length - 1) head [head] = some chain)
    (hgt : dictGet b.grid t = some tp)
    (hgh : dictGet b.grid head = some hp)
    (hcol : tp.color ≠ hp.color) :
    (validate_move b sel t =
        .valid ⟨.inline, d, chain,
          (traceOpp b.grid hp.color d (b.grid.length + 1) t []).1⟩) ↔
      ((traceOpp b.grid hp.color d (b.grid.length + 1) t []).1.length < chain.length ∧
        chain.length ≤ 3 ∧
        dictGet b.grid (traceOpp b.grid hp.color d (b.grid.length + 1) t []).2 = none) := by
  rcases htr : traceOpp b.grid hp.color d (b.grid.length + 1) t [] with ⟨oc, bl⟩
  simp only [validate_move, if_neg hne, hadj, hld, if_neg hbr, hbc, hgt, hgh,
    if_neg hcol, htr]
  by_cases h1 : chain.length ≤ oc.length
  · simp only [if_pos h1]
    constructor
    · intro hx
      exact absurd hx (by simp)
    · intro hx
      exact absurd hx.1 (by omega)
  · by_cases h2 : chain.length > 3
    · simp only [if_neg h1, if_pos h2]
      constructor
      · intro hx
        exact absurd hx (by simp)
      · intro hx
        exact absurd hx.2.1 (by omega)
    · by_cases h3 : (dictGet b.grid bl).isSome
      · simp only [if_neg h1, if_neg h2, if_pos h3]
        constructor
        · intro hx
          exact absurd hx (by simp)
        · intro hx
          rw [hx.2.2] at h3
          simp at h3
      · simp only [if_neg h1, if_neg h2, if_neg h3]
        constructor
        · intro _
          exact ⟨by omega, by omega, Option.not_isSome_iff_eq_none.mp h3⟩
        · intro _
          trivial

/-- 2 black attackers vs 1 white defender on a synthetic line. -/
def b21 : Board := ⟨[((0, 0), ⟨.B⟩), ((1, 0), ⟨.B⟩), ((2, 0), ⟨.W⟩)], [], 0, 0⟩

/-- 3 attackers vs 2 defenders, the beyond-cell `(5, 0)` lying off the board. -/
def b32 : Board :=
  ⟨[((0, 0), ⟨.B⟩), ((1, 0), ⟨.B⟩), ((2, 0), ⟨.B⟩), ((3, 0), ⟨.W⟩), ((4, 0), ⟨.W⟩)],
    [], 0, 0⟩

/-- 2 attackers vs 2 defenders: equal strength. -/
def b22 : Board :=
  ⟨[((0, 0), ⟨.B⟩), ((1, 0), ⟨.B⟩), ((2, 0), ⟨.W⟩), ((3, 0), ⟨.W⟩)], [], 0, 0⟩

theorem C1_witness :
    validate_move b21 [(0, 0), (1, 0)] (2, 0) =
        .valid ⟨.inline, (1, 0), [(1, 0), (0, 0)], [(2, 0)]⟩ ∧
    validate_move b32 [(0, 0), (1, 0), (2, 0)] (3, 0) =
        .valid ⟨.inline, (1, 0), [(2, 0), (1, 0), (0, 0)], [(3, 0), (4, 0)]⟩ ∧
    validate_move b22 [(0, 0), (1, 0)] (2, 0) ≠
        .valid ⟨.inline, (1, 0), [(1, 0), (0, 0)], [(2, 0), (3, 0)]⟩ := by
  refine ⟨?_, ?_, ?_⟩
  · have h := C1_sumito_iff b21 [(0, 0), (1, 0)] (2, 0) (1, 0) (1, 0) (1, 0)
      [(1, 0), (0, 0)] ⟨.W⟩ ⟨.B⟩ (by decide) (by decide) (by decide) (by decide)
      (by decide) (by decide) (by decide) (by decide)
    have he1 : (traceOpp b21.grid Color.B (1, 0) (b21.grid.length + 1) (2, 0) []).1 =
        [((2 : Int), (0 : Int))] := by decide
    have h2 := h.mpr (by decide)
    rw [he1] at h2
    exact h2
  · have h := C1_sumito_iff b32 [(0, 0), (1, 0), (2, 0)] (3, 0) (1, 0) (2, 0) (1, 0)
      [(2, 0), (1, 0), (0, 0)] ⟨.W⟩ ⟨.B⟩ (by decide) (by decide) (by decide) (by decide)
      (by decide) (by decide) (by decide) (by decide)
    have he1 : (traceOpp b32.grid Color.B (1, 0) (b32.grid.length + 1) (3, 0) []).1 =
        [((3 : Int), (0 : Int)), ((4 : Int), (0 : Int))] := by decide
    have h2 := h.mpr (by decide)
    rw [he1] at h2
    exact h2
  · have h := C1_sumito_iff b22 [(0, 0), (1, 0)] (2, 0) (1, 0) (1, 0) (1, 0)
      [(1, 0), (0, 0)] ⟨.W⟩ ⟨.B⟩ (by decide) (by decide) (by decide) (by decide)
      (by decide) (by decide) (by decide) (by decide)
    have he1 : (traceOpp b22.grid Color.B (1, 0) (b22.grid.length + 1) (2, 0) []).1 =
        [((2 : Int), (0 : Int)), ((3 : Int), (0 : Int))] := by decide
    rw [he1] at h
    intro hx
    have h2 := h.mp hx
    exact absurd h2.1 (by decide)

end Abalone

namespace Abalone

/-! ### Characterizing `apply_move` -/

/-- The piece recorded for an occupied cell (junk default on empty cells; the
lemmas below only use it under an occupancy hypothesis). -/
def pieceAt (g : Grid) (k : Coord) : Piece := (dictGet g k).getD ⟨.B⟩

theorem pieceAt_eq (g : Grid) (k : Coord) (p : Piece) (h : dictGet g k = some p) :
    pieceAt g k = p := by simp [pieceAt, h]

theorem removePhase_spec (d : Coord) (l : List Coord) :
    ∀ (g : Grid) (acc : List (Piece × Coord)),
      NodupKeys g → l.Nodup → (∀ x ∈ l, (dictGet g x).isSome = true) →
      ∃ g2, removePhase d g l acc =
          some (g2, acc ++ l.map (fun x => (pieceAt g x, x + d))) ∧
        NodupKeys g2 ∧ g2.length + l.length = g.length ∧
        ∀ k, dictGet g2 k = if k ∈ l then none else dictGet g k := by
  induction l with
  | nil =>
    intro g acc hnk _ _
    exact ⟨g, by simp [removePhase], hnk, by simp, fun k => by simp⟩
  | cons x rest ih =>
    intro g acc hnk hnd hocc
    have hx : (dictGet g x).isSome = true := hocc x (List.mem_cons_self x rest)
    obtain ⟨p, hp⟩ := Option.isSome_iff_exists.mp hx
    simp only [List.nodup_cons] at hnd
    have hnk2 : NodupKeys (dictDel g x) := nodupKeys_dictDel g x hnk
    have hocc2 : ∀ y ∈ rest, (dictGet (dictDel g x) y).isSome = true := by
      intro y hy
      rw [dictGet_dictDel_ne g x y (fun he => hnd.1 (he ▸ hy))]
      exact hocc y (List.mem_cons_of_mem x hy)
    obtain ⟨g2, hrp, hnk3, hlen, hget⟩ :=
      ih (dictDel g x) (acc ++ [(p, x + d)]) hnk2 hnd.2 hocc2
    have hmap : rest.map (fun y => (pieceAt (dictDel g x) y, y + d)) =
        rest.map (fun y => (pieceAt g y, y + d)) := by
      apply List.map_congr_left
      intro y hy
      have h2 : dictGet (dictDel g x) y = dictGet g y :=
        dictGet_dictDel_ne g x y (fun he => hnd.1 (he ▸ hy))
      simp [pieceAt, h2]
    refine ⟨g2, ?_, hnk3, ?_, ?_⟩
    · simp only [removePhase, hp, hrp, hmap, List.map_cons, pieceAt_eq g x p hp]
      simp [List.append_assoc]
    · have hld := length_dictDel g x hx
      simp only [List.length_cons]
      omega
    · intro k
      rw [hget k]
      by_cases hkr : k ∈ rest
      · simp [hkr]
      · simp only [if_neg hkr]
        by_cases hkx : k = x
        · subst hkx
          rw [dictGet_dictDel_self g k hnk]
          simp
        · rw [dictGet_dictDel_ne g x k hkx]
          simp [List.mem_cons, hkx, hkr]

theorem placePhase_spec (ptm : List (Piece × Coord)) :
    ∀ (g : Grid) (bs ws : Nat),
      NodupKeys g → (ptm.map Prod.snd).Nodup →
      (∀ pc ∈ ptm, isValidCell pc.2 = true → dictGet g pc.2 = none) →
      ∃ g2 bs2 ws2, placePhase g bs ws ptm = (g2, bs2, ws2) ∧
        NodupKeys g2 ∧
        g2.length + bs2 + ws2 = g.length + bs + ws + ptm.length ∧
        (∀ pc ∈ ptm, isValidCell pc.2 = true → dictGet g2 pc.2 = some pc.1) ∧
        (∀ k, k ∉ ptm.map Prod.snd → dictGet g2 k = dictGet g k) ∧
        ws2 = ws + (ptm.filter
          (fun pc => !isValidCell pc.2 && decide (pc.1.color = .B))).length ∧
        bs2 = bs + (ptm.filter
          (fun pc => !isValidCell pc.2 && decide (pc.1.color = .W))).length := by
  induction ptm with
  | nil =>
    intro g bs ws hnk _ _
    exact ⟨g, bs, ws, rfl, hnk, by simp, by simp, fun k _ => rfl, by simp, by simp⟩
  | cons pc rest ih =>
    obtain ⟨p, dst⟩ := pc
    intro g bs ws hnk hdn hfree
    simp only [List.map_cons, List.nodup_cons] at hdn
    by_cases hv : isValidCell dst = true
    · have hnone : dictGet g dst = none := hfree (p, dst) (List.mem_cons_self _ _) hv
      have hnk2 : NodupKeys (dictSet g dst p) := nodupKeys_dictSet_of_none g dst p hnk hnone
      have hfree2 : ∀ pc2 ∈ rest, isValidCell pc2.2 = true →
          dictGet (dictSet g dst p) pc2.2 = none := by
        intro pc2 h2 hv2
        rw [dictGet_dictSet_ne g dst pc2.2 p
          (fun he => hdn.1 (he ▸ List.mem_map_of_mem Prod.snd h2))]
        exact hfree pc2 (List.mem_cons_of_mem _ h2) hv2
      obtain ⟨g2, bs2, ws2, hpl, hnk3, hlen, hplaced, hframe, hws, hbs⟩ :=
        ih (dictSet g dst p) bs ws hnk2 hdn.2 hfree2
      refine ⟨g2, bs2, ws2, ?_, hnk3, ?_, ?_, ?_, ?_, ?_⟩
      · simp only [placePhase, if_pos hv, hpl]
      · rw [length_dictSet_of_none g dst p hnone] at hlen
        simp only [List.length_cons]
        omega
      · intro pc2 h2 hv2
        simp only [List.mem_cons] at h2
        rcases h2 with rfl | h2
        · rw [hframe dst hdn.1, dictGet_dictSet_self]
        · exact hplaced pc2 h2 hv2
      · intro k hk
        simp only [List.map_cons, List.mem_cons] at hk
        push_neg at hk
        rw [hframe k hk.2, dictGet_dictSet_ne g dst k p hk.1]
      · rw [hws]
        simp [List.filter_cons, hv]
      · rw [hbs]
        simp [List.filter_cons, hv]
    · have hfree2 : ∀ pc2 ∈ rest, isValidCell pc2.2 = true → dictGet g pc2.2 = none :=
        fun pc2 h2 hv2 => hfree pc2 (List.mem_cons_of_mem _ h2) hv2
      have hvb : isValidCell dst = false := by
        cases hb : isValidCell dst
        · rfl
        · exact absurd hb hv
      cases hpc : p.color with
      | B =>
        obtain ⟨g2, bs2, ws2, hpl, hnk3, hlen, hplaced, hframe, hws, hbs⟩ :=
          ih g bs (ws + 1) hnk hdn.2 hfree2
        refine ⟨g2, bs2, ws2, ?_, hnk3, ?_, ?_, ?_, ?_, ?_⟩
        · simp only [placePhase, hvb, Bool.false_eq_true, if_false, hpc, hpl]
        · simp only [List.length_cons]
          omega
        · intro pc2 h2 hv2
          simp only [List.mem_cons] at h2
          rcases h2 with rfl | h2
          · exact absurd hv2 hv
          · exact hplaced pc2 h2 hv2
        · intro k hk
          simp only [List.map_cons, List.mem_cons] at hk
          push_neg at hk
          exact hframe k hk.2
        · rw [hws]
          simp only [List.filter_cons, hvb, hpc]
          simp
          omega
        · rw [hbs]
          simp only [List.filter_cons, hvb, hpc]
          simp
      | W =>
        obtain ⟨g2, bs2, ws2, hpl, hnk3, hlen, hplaced, hframe, hws, hbs⟩ :=
          ih g (bs + 1) ws hnk hdn.2 hfree2
        refine ⟨g2, bs2, ws2, ?_, hnk3, ?_, ?_, ?_, ?_, ?_⟩
        · simp only [placePhase, hvb, Bool.false_eq_true, if_false, hpc, hpl]
        · simp only [List.length_cons]
          omega
        · intro pc2 h2 hv2
          simp only [List.mem_cons] at h2
          rcases h2 with rfl | h2
          · exact absurd hv2 hv
          · exact hplaced pc2 h2 hv2
        · intro k hk
          simp only [List.map_cons, List.mem_cons] at hk
          push_neg at hk
          exact hframe k hk.2
        · rw [hws]
          simp only [List.filter_cons, hvb, hpc]
          simp
        · rw [hbs]
          simp only [List.filter_cons, hvb, hpc]
          simp
          omega

end Abalone

namespace Abalone

/-- Marbles of colour `c` (as recorded in `g`) that the move ejects off the
board: their destination cell is off the valid board. -/
def countEjected (g : Grid) (m : MoveData) (c : Color) : Nat :=
  ((m.marbles ++ m.push_opponent).filter
    (fun x => !isValidCell (x + m.dir) && decide ((pieceAt g x).color = c))).length

theorem winnerOf_spec (ws bs : Nat) :
    (winnerOf ws bs = some .W ↔ 6 ≤ ws) ∧
    (winnerOf ws bs = some .B ↔ ws < 6 ∧ 6 ≤ bs) ∧
    (winnerOf ws bs = none ↔ ws < 6 ∧ bs < 6) := by
  refine ⟨?_, ?_, ?_⟩ <;> (unfold winnerOf; split_ifs with h1 h2 <;> simp <;> omega)

/-- Full characterization of `apply_move` on a well-formed move: every moving
marble is removed, re-placed one step along the direction when the
destination is a valid cell, and otherwise ejected, crediting the colour
opposite to the ejected piece (whoever owns it); the winner report fires
exactly at a score of 6. -/
theorem apply_move_spec (b : Board) (m : MoveData)
    (hnk : NodupKeys b.grid)
    (hnd : (m.marbles ++ m.push_opponent).Nodup)
    (hocc : ∀ x ∈ m.marbles ++ m.push_opponent, (dictGet b.grid x).isSome = true)
    (hfresh : ∀ x ∈ m.marbles ++ m.push_opponent,
      (dictGet b.grid (x + m.dir)).isSome = true →
      x + m.dir ∈ m.marbles ++ m.push_opponent) :
    ∃ b2 w, apply_move b m = some (b2, w) ∧
      NodupKeys b2.grid ∧
      b2.grid.length + b2.black_score + b2.white_score =
        b.grid.length + b.black_score + b.white_score ∧
      (∀ x ∈ m.marbles ++ m.push_opponent, isValidCell (x + m.dir) = true →
        dictGet b2.grid (x + m.dir) = dictGet b.grid x) ∧
      (∀ y, y ∉ m.marbles ++ m.push_opponent →
        y ∉ (m.marbles ++ m.push_opponent).map (fun x => x + m.dir) →
        dictGet b2.grid y = dictGet b.grid y) ∧
      (∀ x ∈ m.marbles ++ m.push_opponent,
        x ∉ (m.marbles ++ m.push_opponent).map (fun x => x + m.dir) →
        dictGet b2.grid x = none) ∧
      b2.white_score = b.white_score + countEjected b.grid m .B ∧
      b2.black_score = b.black_score + countEjected b.grid m .W ∧
      b2.selected = b.selected ∧
      (w = some .W ↔ 6 ≤ b2.white_score) ∧
      (w = some .B ↔ b2.white_score < 6 ∧ 6 ≤ b2.black_score) ∧
      (w = none ↔ b2.white_score < 6 ∧ b2.black_score < 6) := by
  obtain ⟨g1, hrp, hnk1, hlen1, hget1⟩ :=
    removePhase_spec m.dir (m.marbles ++ m.push_opponent) b.grid [] hnk hnd hocc
  rw [List.nil_append] at hrp
  set L := m.marbles ++ m.push_opponent with hL
  set ptm := L.map (fun x => (pieceAt b.grid x, x + m.dir)) with hptm
  have hsnd : ptm.map Prod.snd = L.map (fun x => x + m.dir) := by
    rw [hptm, List.map_map]
    rfl
  have hdn : (ptm.map Prod.snd).Nodup := by
    rw [hsnd]
    exact hnd.map (add_left_injective m.dir)
  have hfree : ∀ pc ∈ ptm, isValidCell pc.2 = true → dictGet g1 pc.2 = none := by
    intro pc hpc _
    rw [hptm] at hpc
    obtain ⟨x, hx, rfl⟩ := List.mem_map.mp hpc
    rw [hget1 (x + m.dir)]
    by_cases hmem : x + m.dir ∈ L
    · simp [hmem]
    · simp only [if_neg hmem]
      cases hb : dictGet b.grid (x + m.dir) with
      | none => rfl
      | some p =>
        exact absurd (hfresh x hx (by simp [hb])) hmem
  obtain ⟨g2, bs2, ws2, hpl, hnk2, hlen2, hplaced, hframe, hws, hbs⟩ :=
    placePhase_spec ptm g1 b.black_score b.white_score hnk1 hdn hfree
  refine ⟨{ b with grid := g2, black_score := bs2, white_score := ws2 },
    winnerOf ws2 bs2, ?_, hnk2, ?_, ?_, ?_, ?_, ?_, ?_, rfl, ?_, ?_, ?_⟩
  · simp only [apply_move, ← hL, hrp, ← hptm, hpl]
  · have hlp : ptm.length = L.length := by rw [hptm]; exact List.length_map L _
    simp only
    omega
  · intro x hx hv
    have hmem : (pieceAt b.grid x, x + m.dir) ∈ ptm := by
      rw [hptm]
      exact List.mem_map_of_mem _ hx
    have h2 := hplaced (pieceAt b.grid x, x + m.dir) hmem hv
    obtain ⟨p, hp⟩ := Option.isSome_iff_exists.mp (hocc x hx)
    simp only at h2
    rw [h2, pieceAt_eq b.grid x p hp, hp]
  · intro y hy1 hy2
    have hy3 : y ∉ ptm.map Prod.snd := by rw [hsnd]; exact hy2
    rw [hframe y hy3, hget1 y, if_neg hy1]
  · intro x hx1 hx2
    have hx3 : x ∉ ptm.map Prod.snd := by rw [hsnd]; exact hx2
    rw [hframe x hx3, hget1 x, if_pos hx1]
  · rw [hws, hptm, List.filter_map, List.length_map]
    rfl
  · rw [hbs, hptm, List.filter_map, List.length_map]
    rfl
  · exact (winnerOf_spec ws2 bs2).1
  · exact (winnerOf_spec ws2 bs2).2.1
  · exact (winnerOf_spec ws2 bs2).2.2

end Abalone

namespace Abalone

/-! ### C3: `apply_move` semantics and the 3-vs-1 edge push -/

/-- C3: `apply_move` removes every moving marble (own chain and pushed chain),
places each one at `position + direction` when that destination satisfies
`max(|q|, |r|, |-q-r|) <= 4`, and otherwise deletes the piece and credits the
opposing colour's score — also when the ejected piece belongs to the mover —
then reports the colour whose score has reached 6, or no winner. -/
theorem C3_apply_move_semantics (b : Board) (m : MoveData)
    (hnk : NodupKeys b.grid)
    (hnd : (m.marbles ++ m.push_opponent).Nodup)
    (hocc : ∀ x ∈ m.marbles ++ m.push_opponent, (dictGet b.grid x).isSome = true)
    (hfresh : ∀ x ∈ m.marbles ++ m.push_opponent,
      (dictGet b.grid (x + m.dir)).isSome = true →
      x + m.dir ∈ m.marbles ++ m.push_opponent) :
    ∃ b2 w, apply_move b m = some (b2, w) ∧
      NodupKeys b2.grid ∧
      b2.grid.length + b2.black_score + b2.white_score =
        b.grid.length + b.black_score + b.white_score ∧
      (∀ x ∈ m.marbles ++ m.push_opponent, isValidCell (x + m.dir) = true →
        dictGet b2.grid (x + m.dir) = dictGet b.grid x) ∧
      (∀ y, y ∉ m.marbles ++ m.push_opponent →
        y ∉ (m.marbles ++ m.push_opponent).map (fun x => x + m.dir) →
        dictGet b2.grid y = dictGet b.grid y) ∧
      (∀ x ∈ m.marbles ++ m.push_opponent,
        x ∉ (m.marbles ++ m.push_opponent).map (fun x => x + m.dir) →
        dictGet b2.grid x = none) ∧
      b2.white_score = b.white_score + countEjected b.grid m .B ∧
      b2.black_score = b.black_score + countEjected b.grid m .W ∧
      b2.selected = b.selected ∧
      (w = some .W ↔ 6 ≤ b2.white_score) ∧
      (w = some .B ↔ b2.white_score < 6 ∧ 6 ≤ b2.black_score) ∧
      (w = none ↔ b2.white_score < 6 ∧ b2.black_score < 6) :=
  apply_move_spec b m hnk hnd hocc hfresh

/-- Three black attackers, one white defender whose beyond-cell `(0, 5)` is
off the board. -/
def bC3 : Board :=
  ⟨[((0, 1), ⟨.B⟩), ((0, 2), ⟨.B⟩), ((0, 3), ⟨.B⟩), ((0, 4), ⟨.W⟩)], [], 0, 0⟩

def mC3 : MoveData := ⟨.inline, (0, 1), [(0, 3), (0, 2), (0, 1)], [(0, 4)]⟩

def bC3r : Board := ⟨[((0, 4), ⟨.B⟩), ((0, 3), ⟨.B⟩), ((0, 2), ⟨.B⟩)], [], 1, 0⟩

theorem C3_witness :
    apply_move bC3 mC3 = some (bC3r, none) ∧
    bC3r.black_score = bC3.black_score + countEjected bC3.grid mC3 Color.W ∧
    bC3r.white_score = bC3.white_score + countEjected bC3.grid mC3 Color.B ∧
    countEjected bC3.grid mC3 Color.W = 1 ∧
    countEjected bC3.grid mC3 Color.B = 0 ∧
    dictGet bC3r.grid (0, 4) = dictGet bC3.grid (0, 3) ∧
    dictGet bC3r.grid (0, 1) = none := by
  obtain ⟨b2, w, happ, _, _, hplace, _, hrem, hws, hbs, _, _, _, _⟩ :=
    C3_apply_move_semantics bC3 mC3 (by decide) (by decide) (by decide) (by decide)
  have he : apply_move bC3 mC3 = some (bC3r, none) := by decide
  rw [happ] at he
  have hpair := Option.some.inj he
  have hb2 : b2 = bC3r := congrArg Prod.fst hpair
  have hp3 := hplace (0, 3) (by decide) (by decide)
  have hc3 : ((0 : Int), (3 : Int)) + mC3.dir = ((0 : Int), (4 : Int)) := by decide
  rw [hc3, hb2] at hp3
  have hr1 := hrem (0, 1) (by decide) (by decide)
  rw [hb2] at hr1 hws hbs
  exact ⟨by decide, hbs, hws, by decide, by decide, hp3, hr1⟩

end Abalone

namespace Abalone

/-! ### Structure of validator-produced moves -/

theorem insertSorted_perm (x : Coord) (l : List Coord) :
    List.Perm (insertSorted x l) (x :: l) := by
  induction l with
  | nil => simp [insertSorted]
  | cons y ys ih =>
    simp only [insertSorted]
    by_cases h : coordLe x y = true
    · simp [h]
    · simp only [h, if_false]
      exact List.Perm.trans (List.Perm.cons y ih) (List.Perm.swap x y ys)

theorem sortCoords_perm (l : List Coord) : List.Perm (sortCoords l) l := by
  induction l with
  | nil => simp [sortCoords]
  | cons x xs ih =>
    exact List.Perm.trans (insertSorted_perm x (sortCoords xs)) (List.Perm.cons x ih)

theorem dir_smul_ne_zero (d : Coord) (hd : d ∈ DIRECTIONS) (n : Nat) (hn : 0 < n) :
    n • d ≠ (0, 0) := by
  fin_cases hd <;>
    (intro h
     simp only [Prod.smul_mk, Prod.mk.injEq] at h
     obtain ⟨h1, h2⟩ := h
     simp only [nsmul_eq_mul] at h1 h2
     omega)

theorem nsmul_dir_inj (d : Coord) (hd : d ∈ DIRECTIONS) {i j : Nat}
    (h : i • d = j • d) : i = j := by
  rcases Nat.lt_trichotomy i j with hlt | heq | hgt
  · exfalso
    have hj : j = i + (j - i) := by omega
    rw [hj, add_nsmul] at h
    have h0 : (j - i) • d = (0, 0) := by
      have h2 := h.symm
      rwa [add_right_eq_self] at h2
    exact dir_smul_ne_zero d hd (j - i) (by omega) h0
  · exact heq
  · exfalso
    have hi : i = j + (i - j) := by omega
    rw [hi, add_nsmul] at h
    have h0 : (i - j) • d = (0, 0) := by
      rwa [add_right_eq_self] at h
    exact dir_smul_ne_zero d hd (i - j) (by omega) h0

theorem deltasOk_mem (d1 : Coord) (x : Coord) (xs : List Coord)
    (h : deltasOk (x :: xs) d1 = true) :
    ∀ y ∈ x :: xs, ∃ k : Nat, y = x + k • d1 := by
  induction xs generalizing x with
  | nil =>
    intro y hy
    simp only [List.mem_singleton] at hy
    exact ⟨0, by simp [hy]⟩
  | cons b rest ih =>
    simp only [deltasOk, Bool.and_eq_true, decide_eq_true_eq] at h
    intro y hy
    simp only [List.mem_cons] at hy
    rcases hy with rfl | hy
    · exact ⟨0, by simp⟩
    · obtain ⟨k, hk⟩ := ih b (by simpa [deltasOk] using h.2) y (by simpa using hy)
      refine ⟨k + 1, ?_⟩
      have hb : b = d1 + x := sub_eq_iff_eq_add.mp h.1
      rw [hk, hb, succ_nsmul]
      rw [add_comm d1 x, add_assoc, add_comm d1 (k • d1)]

theorem deltasOk_nodup (d1 : Coord) (hd : d1 ∈ DIRECTIONS) :
    ∀ l : List Coord, deltasOk l d1 = true → l.Nodup := by
  intro l
  induction l with
  | nil => intro _; simp
  | cons x xs ih =>
    intro h
    have hxs : deltasOk xs d1 = true := by
      cases xs with
      | nil => simp [deltasOk]
      | cons b rest =>
        simp only [deltasOk, Bool.and_eq_true] at h
        exact h.2
    refine List.nodup_cons.mpr ⟨?_, ih hxs⟩
    intro hmem
    cases xs with
    | nil => simp at hmem
    | cons b rest =>
      simp only [deltasOk, Bool.and_eq_true, decide_eq_true_eq] at h
      obtain ⟨k, hk⟩ := deltasOk_mem d1 b rest hxs x hmem
      have hb : b = d1 + x := sub_eq_iff_eq_add.mp h.1
      rw [hb] at hk
      have hk2 : x = x + (k + 1) • d1 := by
        calc x = (d1 + x) + k • d1 := hk
          _ = x + (k + 1) • d1 := by
            rw [add_comm d1 x, add_assoc, add_comm d1 (k • d1), ← succ_nsmul]
      have h0 : (k + 1) • d1 = 0 := self_eq_add_right.mp hk2
      exact dir_smul_ne_zero d1 hd (k + 1) (Nat.succ_pos k) (by simpa using h0)

/-- A selection passing the multi-marble line check has no duplicates. -/
theorem lineCheckMulti_nodup (sel : List Coord) (ld : Coord)
    (h : lineCheckMulti sel = some ld) : sel.Nodup := by
  unfold lineCheckMulti at h
  split at h
  next a b rest heq =>
    split at h
    next hcond =>
      have hsorted : (a :: b :: rest).Nodup := by
        refine deltasOk_nodup (b - a) hcond.1 (a :: b :: rest) ?_
        simp only [deltasOk, decide_eq_true_eq, Bool.and_eq_true]
        exact ⟨by simp, hcond.2⟩
      have hperm := sortCoords_perm sel
      rw [heq] at hperm
      exact hperm.nodup hsorted
    next => simp at h
  next => simp at h

end Abalone

namespace Abalone

theorem buildChain_spec (sel : List Coord) (d : Coord) :
    ∀ (n : Nat) (curr : Coord) (acc chain : List Coord),
      buildChain sel d n curr acc = some chain →
      chain = acc ++ (List.range n).map (fun i => curr - (i + 1) • d) ∧
      ∀ i ∈ List.range n, curr - (i + 1) • d ∈ sel := by
  intro n
  induction n with
  | zero =>
    intro curr acc chain h
    simp only [buildChain, Option.some.injEq] at h
    exact ⟨by simp [← h], by simp⟩
  | succ n ih =>
    intro curr acc chain h
    simp only [buildChain] at h
    split at h
    next hmem =>
      obtain ⟨hchain, hmemI⟩ := ih (curr - d) (acc ++ [curr - d]) chain h
      have hstep : ∀ i : Nat, (curr - d) - (i + 1) • d = curr - (i + 1 + 1) • d := by
        intro i
        rw [sub_sub, ← succ_nsmul']
      constructor
      · rw [hchain, List.range_succ_eq_map, List.map_cons, List.map_map]
        simp only [List.append_assoc, List.singleton_append]
        congr 2
        · simp
        · apply List.map_congr_left
          intro i _
          simp only [Function.comp_apply]
          exact hstep i
      · intro i hi
        cases i with
        | zero => simpa using hmem
        | succ j =>
          simp only [List.mem_range] at hi
          have hj := hmemI j (List.mem_range.mpr (by omega))
          rw [hstep j] at hj
          exact hj
    next => exact absurd h (by simp)

theorem traceOpp_spec (g : Grid) (hc : Color) (d : Coord) :
    ∀ (fuel : Nat) (curr : Coord) (acc oc : List Coord) (bl : Coord),
      traceOpp g hc d fuel curr acc = (oc, bl) →
      ∃ k : Nat, oc = acc ++ (List.range k).map (fun i => curr + i • d) ∧
        bl = curr + k • d ∧
        ∀ i ∈ List.range k, ∃ p : Piece,
          dictGet g (curr + i • d) = some p ∧ p.color ≠ hc := by
  intro fuel
  induction fuel with
  | zero =>
    intro curr acc oc bl h
    simp only [traceOpp, Prod.mk.injEq] at h
    exact ⟨0, by simp [← h.1], by simp [← h.2], by simp⟩
  | succ n ih =>
    intro curr acc oc bl h
    simp only [traceOpp] at h
    split at h
    next p hp =>
      split at h
      next hpc =>
        obtain ⟨k, hoc, hbl, hocc⟩ := ih (curr + d) (acc ++ [curr]) oc bl h
        have hstep : ∀ i : Nat, (curr + d) + i • d = curr + (i + 1) • d := by
          intro i
          rw [succ_nsmul', ← add_assoc]
        refine ⟨k + 1, ?_, ?_, ?_⟩
        · rw [hoc, List.range_succ_eq_map, List.map_cons, List.map_map]
          simp only [List.append_assoc, List.singleton_append, zero_smul, add_zero]
          congr 2
          apply List.map_congr_left
          intro i _
          simp only [Function.comp_apply]
          exact hstep i
        · rw [hbl, hstep k]
        · intro i hi
          cases i with
          | zero => exact ⟨p, by simpa using hp, hpc⟩
          | succ j =>
            simp only [List.mem_range] at hi
            have hj := hocc j (List.mem_range.mpr (by omega))
            rw [hstep j] at hj
            exact hj
      next hpc =>
        simp only [Prod.mk.injEq] at h
        exact ⟨0, by simp [← h.1], by simp [← h.2], by simp⟩
    next hp =>
      simp only [Prod.mk.injEq] at h
      exact ⟨0, by simp [← h.1], by simp [← h.2], by simp⟩

end Abalone

namespace Abalone

theorem buildChain_head_spec (sel : List Coord) (d : Coord) (n : Nat) (head : Coord)
    (chain : List Coord) (h : buildChain sel d n head [head] = some chain) :
    chain = (List.range (n + 1)).map (fun j => head - j • d) ∧
    (head ∈ sel → ∀ x ∈ chain, x ∈ sel) := by
  obtain ⟨hc, hm⟩ := buildChain_spec sel d n head [head] chain h
  constructor
  · rw [hc, List.range_succ_eq_map, List.map_cons, List.map_map]
    simp only [List.singleton_append, zero_smul, sub_zero]
    congr 1
  · intro hhead x hx
    rw [hc] at hx
    simp only [List.singleton_append, List.mem_cons, List.mem_map] at hx
    rcases hx with rfl | ⟨i, hi, rfl⟩
    · exact hhead
    · exact hm i hi

theorem nodup_range_map_sub (head d : Coord) (hd : d ∈ DIRECTIONS) (n : Nat) :
    ((List.range n).map (fun j => head - j • d)).Nodup := by
  refine List.Nodup.map ?_ (List.nodup_range n)
  intro i j hij
  exact nsmul_dir_inj d hd (sub_right_injective hij)

theorem nodup_range_map_add (t d : Coord) (hd : d ∈ DIRECTIONS) (n : Nat) :
    ((List.range n).map (fun i => t + i • d)).Nodup := by
  refine List.Nodup.map ?_ (List.nodup_range n)
  intro i j hij
  exact nsmul_dir_inj d hd (add_right_injective t hij)

/-- Every move the validator accepts from an own-colour occupied selection is
well-formed: its marbles (own chain plus pushed chain) are pairwise distinct
and all on occupied cells, and any occupied destination cell is itself one of
the moving marbles (so `apply_move` never overwrites a piece). -/
theorem valid_move_wf (b : Board) (sel : List Coord) (t : Coord) (c : Color)
    (m : MoveData)
    (hocc : ∀ p ∈ sel, dictGet b.grid p = some ⟨c⟩)
    (hv : validate_move b sel t = .valid m) :
    (m.marbles ++ m.push_opponent).Nodup ∧
    (∀ x ∈ m.marbles ++ m.push_opponent, (dictGet b.grid x).isSome = true) ∧
    (∀ x ∈ m.marbles ++ m.push_opponent,
      (dictGet b.grid (x + m.dir)).isSome = true →
      x + m.dir ∈ m.marbles ++ m.push_opponent) := by
  unfold validate_move at hv
  split at hv
  · simp at hv
  next hne =>
    split at hv
    · simp at hv
    next d nb hadj =>
      obtain ⟨hnb, hdDir, hdt⟩ := findAdj_some sel t d nb hadj
      split at hv
      · simp at hv
      next ld hld =>
        split at hv
        next hbranch =>
          split at hv
          · simp at hv
          next hany =>
            obtain rfl : (⟨.broadside, d, sel, []⟩ : MoveData) = m := VResult.valid.inj hv
            simp only [List.append_nil]
            have hlcm : lineCheckMulti sel = some ld := by
              rw [lineDirOf, if_pos hbranch.1] at hld
              exact hld
            refine ⟨lineCheckMulti_nodup sel ld hlcm, ?_, ?_⟩
            · intro x hx
              rw [hocc x hx]
              rfl
            · intro x hx hsome
              exact absurd (List.any_eq_true.mpr ⟨x, hx, hsome⟩) hany
        next hbranch =>
          split at hv
          · simp at hv
          next chain hbc =>
            obtain ⟨hcform, hcmem⟩ :=
              buildChain_head_spec sel d (sel.length - 1) nb chain hbc
            have hchain_sub : ∀ x ∈ chain, x ∈ sel := hcmem hnb
            have hchain_nodup : chain.Nodup := by
              rw [hcform]
              exact nodup_range_map_sub nb d hdDir (sel.length - 1 + 1)
            have harr : ∀ i : Nat, nb - (i + 1) • d + d = nb - i • d := by
              intro i
              rw [succ_nsmul, ← sub_sub, sub_add_cancel]
            split at hv
            next hgt =>
              obtain rfl : (⟨.inline, d, chain, []⟩ : MoveData) = m := VResult.valid.inj hv
              simp only [List.append_nil]
              refine ⟨hchain_nodup, ?_, ?_⟩
              · intro x hx
                rw [hocc x (hchain_sub x hx)]
                rfl
              · intro x hx hsome
                rw [hcform] at hx ⊢
                simp only [List.mem_map, List.mem_range] at hx
                obtain ⟨j, hj, rfl⟩ := hx
                cases j with
                | zero =>
                  exfalso
                  simp only [zero_smul, sub_zero] at hsome
                  rw [hdt, hgt] at hsome
                  simp at hsome
                | succ i =>
                  simp only [List.mem_map, List.mem_range]
                  exact ⟨i, by omega, (harr i).symm⟩
            next tp hgt =>
              split at hv
              · simp at hv
              next hp hgh =>
                split at hv
                · simp at hv
                next hcolne =>
                  split at hv
                  next oc bl htr =>
                    split at hv
                    · simp at hv
                    next hlen1 =>
                      split at hv
                      · simp at hv
                      next hlen3 =>
                        split at hv
                        · simp at hv
                        next hbehind =>
                          obtain rfl : (⟨.inline, d, chain, oc⟩ : MoveData) = m :=
                            VResult.valid.inj hv
                          have hpc : hp = ⟨c⟩ := by
                            have h2 := hocc nb hnb
                            rw [hgh] at h2
                            exact Option.some.inj h2
                          subst hpc
                          obtain ⟨k, hocform, hbl, hococc⟩ :=
                            traceOpp_spec b.grid (Piece.mk c).color d
                              (b.grid.length + 1) t [] oc bl htr
                          simp only [List.nil_append] at hocform
                          have hoc_occ : ∀ x ∈ oc, ∃ p2 : Piece,
                              dictGet b.grid x = some p2 ∧ p2.color ≠ c := by
                            intro x hx
                            rw [hocform] at hx
                            simp only [List.mem_map, List.mem_range] at hx
                            obtain ⟨i, hi, rfl⟩ := hx
                            exact hococc i (List.mem_range.mpr hi)
                          have hk1 : 1 ≤ k := by
                            by_contra hk0
                            have hk : k = 0 := by omega
                            subst hk
                            simp only [zero_smul, add_zero] at hbl
                            rw [hbl, hgt] at hbehind
                            simp at hbehind
                          have hoc_nodup : oc.Nodup := by
                            rw [hocform]
                            exact nodup_range_map_add t d hdDir k
                          have hdisj : chain.Disjoint oc := by
                            intro x hxc hxo
                            obtain ⟨p2, hp2, hp2c⟩ := hoc_occ x hxo
                            rw [hocc x (hchain_sub x hxc)] at hp2
                            exact hp2c (congrArg Piece.color (Option.some.inj hp2)).symm
                          have hstep : ∀ i : Nat, t + i • d + d = t + (i + 1) • d := by
                            intro i
                            rw [succ_nsmul, ← add_assoc]
                          refine ⟨List.Nodup.append hchain_nodup hoc_nodup hdisj,
                            ?_, ?_⟩
                          · intro x hx
                            simp only [List.mem_append] at hx
                            rcases hx with hx | hx
                            · rw [hocc x (hchain_sub x hx)]
                              rfl
                            · obtain ⟨p2, hp2, _⟩ := hoc_occ x hx
                              rw [hp2]
                              rfl
                          · intro x hx hsome
                            simp only [List.mem_append] at hx ⊢
                            rcases hx with hx | hx
                            · rw [hcform] at hx
                              simp only [List.mem_map, List.mem_range] at hx
                              obtain ⟨j, hj, rfl⟩ := hx
                              cases j with
                              | zero =>
                                right
                                simp only [zero_smul, sub_zero, hdt]
                                rw [hocform]
                                simp only [List.mem_map, List.mem_range]
                                exact ⟨0, by omega, by simp⟩
                              | succ i =>
                                left
                                rw [hcform]
                                simp only [List.mem_map, List.mem_range]
                                exact ⟨i, by omega, (harr i).symm⟩
                            · rw [hocform] at hx
                              simp only [List.mem_map, List.mem_range] at hx
                              obtain ⟨i, hi, rfl⟩ := hx
                              by_cases hik : i + 1 < k
                              · right
                                rw [hocform]
                                simp only [List.mem_map, List.mem_range]
                                exact ⟨i + 1, hik, (hstep i).symm⟩
                              · exfalso
                                have hik2 : i + 1 = k := by omega
                                rw [hstep i, hik2, ← hbl] at hsome
                                rw [hsome] at hbehind
                                simp at hbehind

end Abalone

namespace Abalone

/-! ### C2: the 28-marble conservation invariant -/

/-- Boards reachable from the standard start by applying validator-produced
moves (selections of at most 3 own-colour occupied cells, as the validator's
contract requires). -/
inductive Reachable : Board → Prop
  | init : Reachable initialBoard
  | step {b : Board} {sel : List Coord} {c : Color} {t : Coord} {m : MoveData}
      {b2 : Board} {w : Option Color} :
      Reachable b →
      sel.length ≤ 3 →
      (∀ p ∈ sel, dictGet b.grid p = some ⟨c⟩) →
      validate_move b sel t = .valid m →
      apply_move b m = some (b2, w) →
      Reachable b2

theorem reachable_inv (b : Board) (h : Reachable b) :
    b.grid.length + b.black_score + b.white_score = 28 ∧ NodupKeys b.grid := by
  induction h with
  | init => exact ⟨by decide, by decide⟩
  | @step b0 sel c t m b2 w hreach hlen hocc hv happ ih =>
    obtain ⟨hcnt, hnk⟩ := ih
    obtain ⟨hnd, hocc2, hfresh⟩ := valid_move_wf _ _ _ _ _ hocc hv
    obtain ⟨b2', w', happ', hnk2, hcnt2, _, _, _, _, _, _, _, _, _⟩ :=
      apply_move_spec _ _ hnk hnd hocc2 hfresh
    have heq : some (b2', w') = some (b2, w) := by rw [← happ', happ]
    have hb : b2' = b2 := congrArg Prod.fst (Option.some.inj heq)
    rw [hb] at hnk2 hcnt2
    exact ⟨by omega, hnk2⟩

/-- C2: on every board reachable from `init_board` through validator-produced
moves, the occupied-cell count plus both score counters equals 28. -/
theorem C2_conservation (b : Board) (h : Reachable b) :
    b.grid.length + b.black_score + b.white_score = 28 :=
  (reachable_inv b h).1

theorem C2_witness :
    initialBoard.grid.length + initialBoard.black_score + initialBoard.white_score
      = 28 :=
  C2_conservation initialBoard Reachable.init

end Abalone

namespace Abalone

/-! ### The AI engine (`ai_engine.py`)

Scores mix Python ints/floats with `math.inf` sentinels; they are embedded as
an extended rational type `XQ`. The wall clock is an oracle `elapsedAt :
Nat → Rat` giving `time.time() - start_time` as sampled at the moment the node
counter has a given value; `random`-derived data (the Zobrist table, the IDS
root shuffle) are likewise oracle parameters. The diagnostic score-breakdown
dict is not modelled (no claim concerns it); all other metrics fields are. -/

/-- A Python float that is either `math.inf`, `-math.inf`, or a finite
score (all finite scores in this program are exact dyadic rationals). -/
inductive XQ
  | negInf
  | fin (q : Rat)
  | posInf
deriving DecidableEq, Repr

/-- Strict `<` on scores. -/
def xlt : XQ → XQ → Bool
  | .negInf, .negInf => false
  | .negInf, _ => true
  | .fin a, .fin b => decide (a < b)
  | .fin _, .posInf => true
  | .fin _, .negInf => false
  | .posInf, _ => false

/-- `a <= b` on scores. -/
def xle (a b : XQ) : Bool := !xlt b a

/-- Python `max` (value-wise; on ties the two arguments are equal scores). -/
def xmax (a b : XQ) : XQ := if xlt a b then b else a

def isFin : XQ → Bool
  | .fin _ => true
  | _ => false

/-- `'exact'` / `'lower'` / `'upper'` transposition-table bound kinds. -/
inductive TTFlag
  | exact
  | lower
  | upper
deriving DecidableEq, Repr

/-- `{'score': ..., 'depth': ..., 'flag': ...}`. -/
structure TTEntry where
  score : XQ
  depth : Nat
  flag : TTFlag
deriving DecidableEq, Repr

/-- The transposition table, a dict keyed by the 64-bit Zobrist hash. -/
abbrev TTable := List (Nat × TTEntry)

def ttGet (t : TTable) (k : Nat) : Option TTEntry :=
  match t with
  | [] => none
  | (k2, e) :: rest => if k2 = k then some e else ttGet rest k

def ttSet (t : TTable) (k : Nat) (v : TTEntry) : TTable :=
  match t with
  | [] => [(k, v)]
  | (k2, e) :: rest => if k2 = k then (k2, v) :: rest else (k2, e) :: ttSet rest k v

/-- The engine's configuration (`set_config` plus the `random`-seeded data). -/
structure AIConfig where
  weights : List Rat
  my_color : Color
  time_limit : Rat
  zobrist : Coord → Color → Nat
  turn_hash : Nat

/-- The engine's mutable search state: the metrics counters that influence
control flow, and the transposition table. -/
structure SearchState where
  nodes_explored : Nat
  time_elapsed : Rat
  cache_hits : Nat
  cutoffs : Nat
  tt : TTable
deriving DecidableEq, Repr

def getOpponentColor (color : Color) : Color :=
  match color with
  | .W => .B
  | .B => .W

/-- `_is_game_over`. -/
def isGameOver (b : Board) : Bool :=
  decide (b.white_score ≥ 6) || decide (b.black_score ≥ 6)

/-- `_get_state_key`: XOR the per-(cell, colour) values of all occupied
cells (keys exist for `q, r` in `range(-9, 10)`), then XOR the side-to-move
constant for the maximizing player. -/
def getStateKey (cfg : AIConfig) (b : Board) (is_max : Bool) : Nat :=
  let h := b.grid.foldl
    (fun h e =>
      if -9 ≤ e.1.1 ∧ e.1.1 ≤ 9 ∧ -9 ≤ e.1.2 ∧ e.1.2 ≤ 9 then
        h ^^^ cfg.zobrist e.1 e.2.color
      else h)
    0
  if is_max then h ^^^ cfg.turn_hash else h

/-- `center_scores.get(pos, 0)`: `5 - hex_distance` on valid cells, 0
elsewhere (the precomputed dict has exactly the valid cells as keys). -/
def centerScore (pos : Coord) : Rat :=
  if isValidCell pos then
    5 - ((pos.1.natAbs + pos.2.natAbs + (-pos.1 - pos.2).natAbs : Nat) : Rat) / 2
  else 0

/-- The same-colour neighbour count used for cohesion and danger. -/
def neighborsCount (g : Grid) (player_color : Color) (pos : Coord) : Nat :=
  (DIRECTIONS.filter (fun d2 =>
    match dictGet g (pos + d2) with
    | some p2 => decide (p2.color = player_color)
    | none => false)).length

/-- `AbaloneAI.evaluate` (returns the scalar score; the labelled breakdown
dict is diagnostic only and not modelled). -/
def evaluate (cfg : AIConfig) (b : Board) (player_color : Color)
    (move : Option MoveData) (move_maker_color : Option Color) : Rat :=
  let st := b.grid.foldl
    (fun (acc : Nat × Nat × Rat × Rat × Rat) e =>
      let (my, op, cen, coh, dan) := acc
      if e.2.color = player_color then
        let nb := neighborsCount b.grid player_color e.1
        let cs := centerScore e.1
        let dan2 :=
          if cs = 1 then (if nb = 0 then dan + 2 else dan + (1 / 2 : Rat)) else dan
        (my + 1, op, cen + cs, coh + (nb : Rat), dan2)
      else (my, op + 1, cen, coh, dan))
    (0, 0, 0, 0, 0)
  let material_diff : Rat := (st.1 : Rat) - (st.2.1 : Rat)
  let aggression : Rat :=
    match move with
    | some mv =>
      if mv.push_opponent ≠ [] then
        match move_maker_color with
        | some mk =>
          if mk = player_color then (mv.push_opponent.length : Rat) * 2
          else -((mv.push_opponent.length : Rat) * 2)
        | none => 0
      else 0
    | none => 0
  let w_mat := cfg.weights.getD 0 0
  let w_agg := cfg.weights.getD 1 0
  let w_coh := cfg.weights.getD 2 0
  let w_cen := cfg.weights.getD 3 0
  let w_danger := cfg.weights.getD 4 0
  material_diff * w_mat + aggression * w_agg + st.2.2.2.1 * w_coh +
    st.2.2.1 * w_cen + st.2.2.2.2 * w_danger

end Abalone

namespace Abalone

/-- Modelled from the spec: `Board.clone`, the deep copy taken before every
search-internal trial ("Board is ... cloned (deep copy) before every
search-internal trial"). `ai_engine.py` calls `board.clone()` via
`_clone_board`, but no `clone` method appears in the repository's
`board.py`; on immutable board values a deep copy is the value itself. -/
def clone (b : Board) : Board := b

/-- `_clone_board`. -/
def cloneBoard (b : Board) : Board := clone b

/-- The deduplication signature `(tuple(sorted(marbles)), dir)`. -/
def sigOf (md : MoveData) : List Coord × Coord := (sortCoords md.marbles, md.dir)

/-- True iff the cell is occupied by the given colour (the generator's
`n1 in board.grid and board.grid[n1].color == color`). -/
def isColorAt (g : Grid) (pos : Coord) (color : Color) : Bool :=
  match dictGet g pos with
  | some p => decide (p.color = color)
  | none => false

/-- `try_add_move`: validate the candidate, and keep it when its signature is
new. (`ai_engine.py` unpacks the validator's result as `move_data, _ =
board.validate_move(...)`; the move component is what `board.py` returns.
An exception result cannot arise here — every candidate selection consists
of occupied own-colour cells — and is treated as no move.) -/
def tryAddMove (b : Board) (st : List MoveData × List (List Coord × Coord))
    (cand : List Coord × Coord) : List MoveData × List (List Coord × Coord) :=
  match validate_move b cand.1 cand.2 with
  | .valid md =>
    if sigOf md ∈ st.2 then st else (st.1 ++ [md], st.2 ++ [sigOf md])
  | _ => st

/-- The candidate selections and targets `get_all_legal_moves` feeds to
`try_add_move`, in source order: single moves for every own piece in all six
directions, then for every own piece and canonical half-direction the
2-chain (two inline targets, four broadside targets) and, when present, the
3-chain (likewise). The candidate list depends only on the board, so
computing it before the `try_add_move` fold preserves the source's
behaviour exactly. -/
def genCandidates (b : Board) (color : Color) : List (List Coord × Coord) :=
  let pieces := (b.grid.filter (fun e => decide (e.2.color = color))).map Prod.fst
  let singles := pieces.flatMap (fun pos => DIRECTIONS.map (fun d2 => ([pos], pos + d2)))
  let half_directions : List Coord := [(1, 0), (0, 1), (1, -1)]
  let lines := pieces.flatMap (fun pos => half_directions.flatMap (fun d2 =>
    let n1 := pos + d2
    if isColorAt b.grid n1 color then
      let group2 := [pos, n1]
      let c2 := [(group2, pos - d2), (group2, n1 + d2)] ++
        (DIRECTIONS.filter (fun bd => decide (bd ≠ d2) && decide (bd ≠ -d2))).map
          (fun bd => (group2, pos + bd))
      let n2 := n1 + d2
      if isColorAt b.grid n2 color then
        let group3 := [pos, n1, n2]
        c2 ++ ([(group3, pos - d2), (group3, n2 + d2)] ++
          (DIRECTIONS.filter (fun bd => decide (bd ≠ d2) && decide (bd ≠ -d2))).map
            (fun bd => (group3, pos + bd)))
      else c2
    else []))
  singles ++ lines

/-- `AbaloneAI.get_all_legal_moves`. -/
def get_all_legal_moves (b : Board) (color : Color) : List MoveData :=
  ((genCandidates b color).foldl (tryAddMove b) ([], [])).1

/-- `get_noisy_moves`: only the pushes. -/
def get_noisy_moves (b : Board) (color : Color) : List MoveData :=
  (get_all_legal_moves b color).filter (fun m => !m.push_opponent.isEmpty)

/-- The `move_priority` key of `get_ordered_moves`. -/
def move_priority (move : MoveData) : Nat :=
  if move.push_opponent ≠ [] then 10 + move.push_opponent.length else 0

/-- Stable descending insertion by key: a later element never passes an
earlier one of equal key, exactly like Python's stable
`list.sort(key=..., reverse=True)`. -/
def insDesc (key : MoveData → Nat) (x : MoveData) : List MoveData → List MoveData
  | [] => [x]
  | y :: ys => if key x ≤ key y then y :: insDesc key x ys else x :: y :: ys

def sortByKeyDesc (key : MoveData → Nat) (l : List MoveData) : List MoveData :=
  l.foldl (fun acc x => insDesc key x acc) []

/-- `get_ordered_moves`: pushes first, by pushed-piece count. -/
def get_ordered_moves (b : Board) (color : Color) : List MoveData :=
  sortByKeyDesc move_priority (get_all_legal_moves b color)

end Abalone

namespace Abalone

/-- The maximizing move loop of `quiescence_search`. -/
def qsMaxLoop (rec : Board → XQ → XQ → SearchState → Option (XQ × SearchState)) :
    List MoveData → Board → XQ → XQ → SearchState → Option (XQ × SearchState)
  | [], _, alpha, _, st => some (alpha, st)
  | mv :: rest, b, alpha, beta, st =>
    match apply_move (cloneBoard b) mv with
    | none => none
    | some (sim2, _) =>
      match rec sim2 alpha beta st with
      | none => none
      | some (score, st2) =>
        if xle beta score then some (beta, st2)
        else if xlt alpha score then qsMaxLoop rec rest b score beta st2
        else qsMaxLoop rec rest b alpha beta st2

/-- The minimizing move loop of `quiescence_search`. -/
def qsMinLoop (rec : Board → XQ → XQ → SearchState → Option (XQ × SearchState)) :
    List MoveData → Board → XQ → XQ → SearchState → Option (XQ × SearchState)
  | [], _, _, beta, st => some (beta, st)
  | mv :: rest, b, alpha, beta, st =>
    match apply_move (cloneBoard b) mv with
    | none => none
    | some (sim2, _) =>
      match rec sim2 alpha beta st with
      | none => none
      | some (score, st2) =>
        if xle score alpha then some (alpha, st2)
        else if xlt score beta then qsMinLoop rec rest b alpha score st2
        else qsMinLoop rec rest b alpha beta st2

/-- `AbaloneAI.quiescence_search` (default extra depth 2; explores only push
moves, ordered by pushed-piece count, with stand-pat pruning). -/
def quiescence (cfg : AIConfig) :
    Nat → Board → XQ → XQ → Bool → SearchState → Option (XQ × SearchState)
  | 0, b, alpha, beta, maximizing, st0 =>
    let st := { st0 with nodes_explored := st0.nodes_explored + 1 }
    let maker_color := if maximizing then getOpponentColor cfg.my_color else cfg.my_color
    let stand_pat : XQ := .fin (evaluate cfg b cfg.my_color none (some maker_color))
    if maximizing then
      if xle beta stand_pat then some (beta, st) else some (stand_pat, st)
    else
      if xle stand_pat alpha then some (alpha, st) else some (stand_pat, st)
  | Nat.succ qd, b, alpha, beta, maximizing, st0 =>
    let st := { st0 with nodes_explored := st0.nodes_explored + 1 }
    let maker_color := if maximizing then getOpponentColor cfg.my_color else cfg.my_color
    let stand_pat : XQ := .fin (evaluate cfg b cfg.my_color none (some maker_color))
    if maximizing then
      if xle beta stand_pat then some (beta, st)
      else
        let alpha2 := if xlt alpha stand_pat then stand_pat else alpha
        let moves := get_noisy_moves b cfg.my_color
        if moves = [] then some (stand_pat, st)
        else
          let sorted := sortByKeyDesc (fun m => m.push_opponent.length) moves
          qsMaxLoop (fun b2 a2 b3 s2 => quiescence cfg qd b2 a2 b3 false s2)
            sorted b alpha2 beta st
    else
      if xle stand_pat alpha then some (alpha, st)
      else
        let beta2 := if xlt stand_pat beta then stand_pat else beta
        let moves := get_noisy_moves b (getOpponentColor cfg.my_color)
        if moves = [] then some (stand_pat, st)
        else
          let sorted := sortByKeyDesc (fun m => m.push_opponent.length) moves
          qsMinLoop (fun b2 a2 b3 s2 => quiescence cfg qd b2 a2 b3 true s2)
            sorted b alpha beta2 st

/-- The transposition-table lookup at the top of `minimax_ab`: either an
immediate return (`.inl`) or a possibly tightened window (`.inr`). -/
def ttProbe (st : SearchState) (key : Nat) (depth : Nat) (alpha beta : XQ) :
    Sum (XQ × SearchState) (XQ × XQ) :=
  match ttGet st.tt key with
  | some entry =>
    if entry.depth ≥ depth then
      if entry.flag = .exact then
        .inl (entry.score, { st with cache_hits := st.cache_hits + 1 })
      else
        let alpha2 :=
          if entry.flag = .lower ∧ xlt alpha entry.score = true then entry.score
          else alpha
        let beta2 :=
          if entry.flag = .upper ∧ xlt entry.score beta = true then entry.score
          else beta
        if xle beta2 alpha2 then
          .inl (entry.score, { st with cache_hits := st.cache_hits + 1 })
        else .inr (alpha2, beta2)
    else .inr (alpha, beta)
  | none => .inr (alpha, beta)

/-- The maximizing child loop of `minimax_ab`: `.inl` is the mid-loop timeout
return (no table store), `.inr` carries the final `max_eval` and `alpha` to
the store. -/
def abMaxLoop (cfg : AIConfig) (elapsedAt : Nat → Rat)
    (rec : MoveData → Board → XQ → XQ → SearchState → Option (XQ × SearchState)) :
    List MoveData → Board → XQ → XQ → XQ → SearchState →
    Option (Sum (XQ × SearchState) (XQ × XQ × SearchState))
  | [], _, alpha, _, maxEval, st => some (.inr (maxEval, alpha, st))
  | mv :: rest, b, alpha, beta, maxEval, st =>
    if st.nodes_explored % 100 = 0 ∧ cfg.time_limit < elapsedAt st.nodes_explored then
      some (.inl (maxEval, st))
    else
      match apply_move (cloneBoard b) mv with
      | none => none
      | some (sim2, _) =>
        match rec mv sim2 alpha beta st with
        | none => none
        | some (eval_val, st2) =>
          let maxEval2 := xmax maxEval eval_val
          let alpha2 := xmax alpha eval_val
          if xle beta alpha2 then
            some (.inr (maxEval2, alpha2, { st2 with cutoffs := st2.cutoffs + 1 }))
          else abMaxLoop cfg elapsedAt rec rest b alpha2 beta maxEval2 st2

/-- The minimizing child loop of `minimax_ab`. -/
def abMinLoop (cfg : AIConfig) (elapsedAt : Nat → Rat)
    (rec : MoveData → Board → XQ → XQ → SearchState → Option (XQ × SearchState)) :
    List MoveData → Board → XQ → XQ → XQ → SearchState →
    Option (Sum (XQ × SearchState) (XQ × XQ × SearchState))
  | [], _, _, beta, minEval, st => some (.inr (minEval, beta, st))
  | mv :: rest, b, alpha, beta, minEval, st =>
    if st.nodes_explored % 100 = 0 ∧ cfg.time_limit < elapsedAt st.nodes_explored then
      some (.inl (minEval, st))
    else
      match apply_move (cloneBoard b) mv with
      | none => none
      | some (sim2, _) =>
        match rec mv sim2 alpha beta st with
        | none => none
        | some (eval_val, st2) =>
          let minEval2 := if xlt eval_val minEval then eval_val else minEval
          let beta2 := if xlt eval_val beta then eval_val else beta
          if xle beta2 alpha then
            some (.inr (minEval2, beta2, { st2 with cutoffs := st2.cutoffs + 1 }))
          else abMinLoop cfg elapsedAt rec rest b alpha beta2 minEval2 st2

/-- `AbaloneAI.minimax_ab`: alpha-beta with transposition table; quiescence
search at depth 0 or terminal positions; entry stored on normal exit with
the flag computed from the final value against the loop-updated window. -/
def minimax_ab (cfg : AIConfig) (elapsedAt : Nat → Rat) :
    Nat → Board → XQ → XQ → Bool → Option MoveData → SearchState →
    Option (XQ × SearchState)
  | 0, b, alpha0, beta0, maximizing, _, st0 =>
    let st := { st0 with nodes_explored := st0.nodes_explored + 1 }
    let key := getStateKey cfg b maximizing
    match ttProbe st key 0 alpha0 beta0 with
    | .inl (score, st2) => some (score, st2)
    | .inr (alpha, beta) => quiescence cfg 2 b alpha beta maximizing st
  | Nat.succ dp, b, alpha0, beta0, maximizing, last_move, st0 =>
    let st := { st0 with nodes_explored := st0.nodes_explored + 1 }
    let key := getStateKey cfg b maximizing
    match ttProbe st key (Nat.succ dp) alpha0 beta0 with
    | .inl (score, st2) => some (score, st2)
    | .inr (alpha, beta) =>
      if isGameOver b then quiescence cfg 2 b alpha beta maximizing st
      else
        let current_color :=
          if maximizing then cfg.my_color else getOpponentColor cfg.my_color
        let moves := get_ordered_moves b current_color
        if moves = [] then
          let maker_color :=
            if maximizing then getOpponentColor cfg.my_color else cfg.my_color
          some (.fin (evaluate cfg b cfg.my_color last_move (some maker_color)), st)
        else
          if maximizing then
            match abMaxLoop cfg elapsedAt
                (fun mv b2 a2 b3 s2 =>
                  minimax_ab cfg elapsedAt dp b2 a2 b3 false (some mv) s2)
                moves b alpha beta .negInf st with
            | none => none
            | some (.inl (maxEval, st2)) => some (maxEval, st2)
            | some (.inr (maxEval, alphaF, st2)) =>
              let flag : TTFlag :=
                if xle maxEval alphaF then .upper
                else if xle beta maxEval then .lower
                else .exact
              some (maxEval,
                { st2 with tt := ttSet st2.tt key ⟨maxEval, Nat.succ dp, flag⟩ })
          else
            match abMinLoop cfg elapsedAt
                (fun mv b2 a2 b3 s2 =>
                  minimax_ab cfg elapsedAt dp b2 a2 b3 true (some mv) s2)
                moves b alpha beta .posInf st with
            | none => none
            | some (.inl (minEval, st2)) => some (minEval, st2)
            | some (.inr (minEval, betaF, st2)) =>
              let flag : TTFlag :=
                if xle minEval alpha then .upper
                else if xle betaF minEval then .lower
                else .exact
              some (minEval,
                { st2 with tt := ttSet st2.tt key ⟨minEval, Nat.succ dp, flag⟩ })

/-- The maximizing child loop of `minimax_pure` (full width, no pruning and
no time check inside the loop). -/
def pureMaxLoop (rec : MoveData → Board → SearchState → Option (XQ × SearchState)) :
    List MoveData → Board → XQ → SearchState → Option (XQ × SearchState)
  | [], _, maxEval, st => some (maxEval, st)
  | mv :: rest, b, maxEval, st =>
    match apply_move (cloneBoard b) mv with
    | none => none
    | some (sim2, _) =>
      match rec mv sim2 st with
      | none => none
      | some (eval_val, st2) => pureMaxLoop rec rest b (xmax maxEval eval_val) st2

/-- The minimizing child loop of `minimax_pure`. -/
def pureMinLoop (rec : MoveData → Board → SearchState → Option (XQ × SearchState)) :
    List MoveData → Board → XQ → SearchState → Option (XQ × SearchState)
  | [], _, minEval, st => some (minEval, st)
  | mv :: rest, b, minEval, st =>
    match apply_move (cloneBoard b) mv with
    | none => none
    | some (sim2, _) =>
      match rec mv sim2 st with
      | none => none
      | some (eval_val, st2) =>
        pureMinLoop rec rest b (if xlt eval_val minEval then eval_val else minEval) st2

/-- The once-per-100-nodes clock sample at the top of `minimax_pure`: it
updates the elapsed-time metric (and drives the UI progress callback, not
modelled), and the budget comparison that follows it ends in `pass` — the
source never aborts the recursion on timeout. -/
def pureClockSample (elapsedAt : Nat → Rat) (st : SearchState) : SearchState :=
  if st.nodes_explored % 100 = 0 then
    { st with time_elapsed := elapsedAt st.nodes_explored }
  else st

/-- `AbaloneAI.minimax_pure`: full-width minimax, no pruning, no cache; the
clock is sampled every 100 explored nodes but the result never depends on
it. -/
def minimax_pure (cfg : AIConfig) (elapsedAt : Nat → Rat) :
    Nat → Board → Bool → Option MoveData → SearchState → Option (XQ × SearchState)
  | 0, b, maximizing, last_move, st0 =>
    let st := pureClockSample elapsedAt
      { st0 with nodes_explored := st0.nodes_explored + 1 }
    let maker_color :=
      if maximizing then getOpponentColor cfg.my_color else cfg.my_color
    some (.fin (evaluate cfg b cfg.my_color last_move (some maker_color)), st)
  | Nat.succ dp, b, maximizing, last_move, st0 =>
    let st := pureClockSample elapsedAt
      { st0 with nodes_explored := st0.nodes_explored + 1 }
    if isGameOver b then
      let maker_color :=
        if maximizing then getOpponentColor cfg.my_color else cfg.my_color
      some (.fin (evaluate cfg b cfg.my_color last_move (some maker_color)), st)
    else
      let current_color :=
        if maximizing then cfg.my_color else getOpponentColor cfg.my_color
      let moves := get_all_legal_moves b current_color
      if moves = [] then
        let maker_color :=
          if maximizing then getOpponentColor cfg.my_color else cfg.my_color
        some (.fin (evaluate cfg b cfg.my_color last_move (some maker_color)), st)
      else
        if maximizing then
          pureMaxLoop
            (fun mv b2 s2 => minimax_pure cfg elapsedAt dp b2 false (some mv) s2)
            moves b .negInf st
        else
          pureMinLoop
            (fun mv b2 s2 => minimax_pure cfg elapsedAt dp b2 true (some mv) s2)
            moves b .posInf st

end Abalone

namespace Abalone

/-- Python tuple order on `((q, r), color)` items (`'B' < 'W'`). -/
def colorLe : Color → Color → Bool
  | .B, _ => true
  | .W, .W => true
  | .W, .B => false

def itemLe (a b : Coord × Color) : Bool :=
  if a.1 = b.1 then colorLe a.2 b.2
  else coordLe a.1 b.1

def insertItemSorted (x : Coord × Color) :
    List (Coord × Color) → List (Coord × Color)
  | [] => [x]
  | y :: ys => if itemLe x y then x :: y :: ys else y :: insertItemSorted x ys

def sortItems : List (Coord × Color) → List (Coord × Color)
  | [] => []
  | x :: xs => insertItemSorted x (sortItems xs)

/-- `_get_board_hash`: `tuple(sorted((pos, piece.color) for ...))`, the
canonical form used by the repetition history. -/
def boardHash (b : Board) : List (Coord × Color) :=
  sortItems (b.grid.map (fun e => (e.1, e.2.color)))

/-- The repetition history (most recent 6 position hashes). -/
abbrev History := List (List (Coord × Color))

/-- The move loop of `_greedy_logic`: evaluate each move on a clone, apply
the −5000 repetition penalty, keep the strictly best (first seen wins
ties). -/
def greedyLoop (cfg : AIConfig) (hist : History) :
    List MoveData → Board → XQ → Option MoveData → Option (Option MoveData)
  | [], _, _, best => some best
  | mv :: rest, b, bestScore, best =>
    match apply_move (cloneBoard b) mv with
    | none => none
    | some (sim2, _) =>
      let score0 := evaluate cfg sim2 cfg.my_color (some mv) (some cfg.my_color)
      let score := if boardHash sim2 ∈ hist then score0 - 5000 else score0
      if xlt bestScore (.fin score) then
        greedyLoop cfg hist rest b (.fin score) (some mv)
      else greedyLoop cfg hist rest b bestScore best

/-- `_greedy_logic` (depth 1). The returned board is the live board the
caller keeps using. -/
def greedyLogic (cfg : AIConfig) (hist : History) (b : Board) :
    Option (Option MoveData × Board) :=
  let moves := get_all_legal_moves b cfg.my_color
  if moves = [] then some (none, b)
  else
    match greedyLoop cfg hist moves b .negInf none with
    | none => none
    | some best => some (best, b)

/-- The per-depth root loop of `_ids_logic`: clock check before every root
move, full-width `minimax_pure` below each. The `Bool` reports a timeout. -/
def idsRootLoop (cfg : AIConfig) (elapsedAt : Nat → Rat) :
    List MoveData → Board → Nat → XQ → Option MoveData → SearchState →
    Option (XQ × Option MoveData × SearchState × Bool)
  | [], _, _, bestScore, bestMove, st => some (bestScore, bestMove, st, false)
  | mv :: rest, b, depth, bestScore, bestMove, st =>
    if cfg.time_limit < elapsedAt st.nodes_explored then
      some (bestScore, bestMove, st, true)
    else
      match apply_move (cloneBoard b) mv with
      | none => none
      | some (sim2, _) =>
        match minimax_pure cfg elapsedAt (depth - 1) sim2 false (some mv) st with
        | none => none
        | some (score, st2) =>
          if xlt bestScore score then
            idsRootLoop cfg elapsedAt rest b depth score (some mv) st2
          else idsRootLoop cfg elapsedAt rest b depth bestScore bestMove st2

/-- `_ids_logic`: iterative deepening over `minimax_pure`. The source's
`while True:` loop (depth 1, 2, 3, … until the clock breaks it) is modelled
with explicit fuel bounding the number of depth iterations; `shuffle` is the
oracle standing for `random.shuffle` on the root moves; the per-depth
breakdown evaluation only fills the diagnostic dict (on a clone) and is not
modelled. The returned board is the live board the caller keeps using. -/
def idsLogic (cfg : AIConfig) (elapsedAt : Nat → Rat)
    (shuffle : Nat → List MoveData → List MoveData) :
    Nat → Nat → Option MoveData → Board → SearchState →
    Option (Option MoveData × SearchState × Board)
  | 0, _, finalBest, b, st => some (finalBest, st, b)
  | Nat.succ fuel, depth, finalBest, b, st0 =>
    let st := { st0 with time_elapsed := elapsedAt st0.nodes_explored }
    if cfg.time_limit < elapsedAt st.nodes_explored then some (finalBest, st, b)
    else
      let moves := shuffle depth (get_all_legal_moves b cfg.my_color)
      if moves = [] then some (finalBest, st, b)
      else
        match idsRootLoop cfg elapsedAt moves b depth .negInf none st with
        | none => none
        | some (_, bestThisDepth, st2, timeout) =>
          if timeout then some (finalBest, st2, b)
          else idsLogic cfg elapsedAt shuffle fuel (depth + 1) bestThisDepth b st2

/-- The per-depth root loop of `champion_search`: ordered moves, alpha-beta
below each root move, root alpha raised to the best score after each. -/
def champRootLoop (cfg : AIConfig) (elapsedAt : Nat → Rat) :
    List MoveData → Board → Nat → XQ → Option MoveData → XQ → XQ → SearchState →
    Option (XQ × Option MoveData × SearchState × Bool)
  | [], _, _, bestScore, bestMove, _, _, st => some (bestScore, bestMove, st, false)
  | mv :: rest, b, depth, bestScore, bestMove, alpha, beta, st =>
    if cfg.time_limit < elapsedAt st.nodes_explored then
      some (bestScore, bestMove, st, true)
    else
      match apply_move (cloneBoard b) mv with
      | none => none
      | some (sim2, _) =>
        match minimax_ab cfg elapsedAt (depth - 1) sim2 alpha beta false (some mv) st with
        | none => none
        | some (score, st2) =>
          let bestScore2 := if xlt bestScore score then score else bestScore
          let bestMove2 := if xlt bestScore score then some mv else bestMove
          champRootLoop cfg elapsedAt rest b depth bestScore2 bestMove2
            (xmax alpha bestScore2) beta st2

/-- `champion_search`: iterative deepening over `minimax_ab` (the caller has
already raised `time_limit` to 5.0, as the source does on entry). -/
def championSearch (cfg : AIConfig) (elapsedAt : Nat → Rat) :
    Nat → Nat → Option MoveData → Board → SearchState →
    Option (Option MoveData × SearchState × Board)
  | 0, _, finalBest, b, st => some (finalBest, st, b)
  | Nat.succ fuel, depth, finalBest, b, st0 =>
    let st := { st0 with time_elapsed := elapsedAt st0.nodes_explored }
    if cfg.time_limit < elapsedAt st.nodes_explored then some (finalBest, st, b)
    else
      let moves := get_ordered_moves b cfg.my_color
      if moves = [] then some (finalBest, st, b)
      else
        match champRootLoop cfg elapsedAt moves b depth .negInf none
            .negInf .posInf st with
        | none => none
        | some (_, bestThisDepth, st2, timeout) =>
          if timeout then some (finalBest, st2, b)
          else championSearch cfg elapsedAt fuel (depth + 1) bestThisDepth b st2

/-- The `algorithm_type` strings dispatched by `get_best_move`. -/
inductive AlgorithmType
  | Greedy
  | IDMinimax
  | IDS
  | MinimaxABP
  | Other
deriving DecidableEq, Repr

/-- `AbaloneAI.get_best_move`: reset the metrics (the transposition table is
instance state and persists), dispatch on the algorithm, and return the
chosen move; the third component is the live board as the caller sees it
after the call. -/
def get_best_move (cfg : AIConfig) (algo : AlgorithmType) (hist : History)
    (elapsedAt : Nat → Rat) (shuffle : Nat → List MoveData → List MoveData)
    (fuel : Nat) (stIn : SearchState) (b : Board) :
    Option (Option MoveData × SearchState × Board) :=
  let st0 : SearchState :=
    { nodes_explored := 0, time_elapsed := 0, cache_hits := 0, cutoffs := 0,
      tt := stIn.tt }
  match algo with
  | .Greedy => (greedyLogic cfg hist b).map (fun r => (r.1, st0, r.2))
  | .IDMinimax => idsLogic cfg elapsedAt shuffle fuel 1 none b st0
  | .IDS => idsLogic cfg elapsedAt shuffle fuel 1 none b st0
  | .MinimaxABP =>
    championSearch { cfg with time_limit := 5 } elapsedAt fuel 1 none b st0
  | .Other => some (none, st0, b)

end Abalone

namespace Abalone

/-! ### C8: the move generator never emits two moves with one signature -/

theorem tryAdd_inv (b : Board) (st : List MoveData × List (List Coord × Coord))
    (cand : List Coord × Coord)
    (h1 : (st.1.map sigOf).Nodup) (h2 : ∀ s ∈ st.1.map sigOf, s ∈ st.2) :
    ((tryAddMove b st cand).1.map sigOf).Nodup ∧
    ∀ s ∈ (tryAddMove b st cand).1.map sigOf, s ∈ (tryAddMove b st cand).2 := by
  unfold tryAddMove
  split
  next md hv =>
    by_cases hs : sigOf md ∈ st.2
    · simp only [if_pos hs]
      exact ⟨h1, h2⟩
    · simp only [if_neg hs]
      constructor
      · simp only [List.map_append, List.map_cons, List.map_nil]
        refine List.Nodup.append h1 (List.nodup_singleton _) ?_
        intro s hsm hss
        simp only [List.mem_singleton] at hss
        subst hss
        exact hs (h2 _ hsm)
      · intro s hsm
        simp only [List.map_append, List.map_cons, List.map_nil,
          List.mem_append, List.mem_singleton] at hsm
        rcases hsm with hsm | rfl
        · exact List.mem_append_left _ (h2 s hsm)
        · exact List.mem_append_right _ (by simp)
  next => exact ⟨h1, h2⟩

theorem foldl_tryAdd_inv (b : Board) (l : List (List Coord × Coord)) :
    ∀ st, (st.1.map sigOf).Nodup → (∀ s ∈ st.1.map sigOf, s ∈ st.2) →
      ((l.foldl (tryAddMove b) st).1.map sigOf).Nodup := by
  induction l with
  | nil => intro st h1 _; exact h1
  | cons c rest ih =>
    intro st h1 h2
    obtain ⟨h1b, h2b⟩ := tryAdd_inv b st c h1 h2
    exact ih _ h1b h2b

/-- C8: for every board and colour, the move list a single generator call
returns contains no two moves with the same (sorted marbles, direction)
signature — a candidate found from two different seed pieces is emitted only
once. -/
theorem C8_no_duplicate_signatures (b : Board) (color : Color) :
    ((get_all_legal_moves b color).map sigOf).Nodup := by
  unfold get_all_legal_moves
  exact foldl_tryAdd_inv b _ ([], []) (by simp) (by simp)

end Abalone

namespace Abalone

/-! ### C4: search never mutates the live board -/

theorem greedyLogic_board (cfg : AIConfig) (hist : History) (b : Board)
    (r : Option MoveData × Board) (h : greedyLogic cfg hist b = some r) :
    r.2 = b := by
  simp only [greedyLogic] at h
  split at h
  · rw [(Option.some.inj h).symm]
  · split at h
    · simp at h
    · rw [(Option.some.inj h).symm]

theorem idsLogic_board (cfg : AIConfig) (e : Nat → Rat)
    (sh : Nat → List MoveData → List MoveData) :
    ∀ (fuel depth : Nat) (fb : Option MoveData) (b : Board) (st : SearchState)
      (r : Option MoveData × SearchState × Board),
      idsLogic cfg e sh fuel depth fb b st = some r → r.2.2 = b := by
  intro fuel
  induction fuel with
  | zero =>
    intro depth fb b st r h
    simp only [idsLogic] at h
    rw [(Option.some.inj h).symm]
  | succ fuel ih =>
    intro depth fb b st r h
    simp only [idsLogic] at h
    split at h
    · rw [(Option.some.inj h).symm]
    · split at h
      · rw [(Option.some.inj h).symm]
      · split at h
        · simp at h
        next st2 timeout heq =>
          split at h
          · rw [(Option.some.inj h).symm]
          · exact ih _ _ _ _ _ h

theorem championSearch_board (cfg : AIConfig) (e : Nat → Rat) :
    ∀ (fuel depth : Nat) (fb : Option MoveData) (b : Board) (st : SearchState)
      (r : Option MoveData × SearchState × Board),
      championSearch cfg e fuel depth fb b st = some r → r.2.2 = b := by
  intro fuel
  induction fuel with
  | zero =>
    intro depth fb b st r h
    simp only [championSearch] at h
    rw [(Option.some.inj h).symm]
  | succ fuel ih =>
    intro depth fb b st r h
    simp only [championSearch] at h
    split at h
    · rw [(Option.some.inj h).symm]
    · split at h
      · rw [(Option.some.inj h).symm]
      · split at h
        · simp at h
        next st2 timeout heq =>
          split at h
          · rw [(Option.some.inj h).symm]
          · exact ih _ _ _ _ _ h

/-- C4: whatever algorithm is configured, a `get_best_move` call leaves the
live board it was given untouched — every candidate move is applied only to
an independent copy produced by `clone`, so the board the caller sees after
the search is the one it passed in, grid and score counters included. -/
theorem C4_search_preserves_live_board (cfg : AIConfig) (algo : AlgorithmType)
    (hist : History) (elapsedAt : Nat → Rat)
    (shuffle : Nat → List MoveData → List MoveData) (fuel : Nat)
    (stIn : SearchState) (b : Board) (mv : Option MoveData) (st2 : SearchState)
    (b2 : Board)
    (h : get_best_move cfg algo hist elapsedAt shuffle fuel stIn b =
      some (mv, st2, b2)) :
    b2 = b := by
  cases algo with
  | Greedy =>
    simp only [get_best_move] at h
    cases hg : greedyLogic cfg hist b with
    | none => rw [hg] at h; simp at h
    | some r =>
      rw [hg, Option.map_some'] at h
      have h4 := congrArg (fun p => p.2.2) (Option.some.inj h)
      simp only at h4
      rw [← h4]
      exact greedyLogic_board cfg hist b r hg
  | IDMinimax => exact idsLogic_board cfg elapsedAt shuffle fuel 1 none b _ _ h
  | IDS => exact idsLogic_board cfg elapsedAt shuffle fuel 1 none b _ _ h
  | MinimaxABP =>
    exact championSearch_board { cfg with time_limit := 5 } elapsedAt fuel 1 none b _ _ h
  | Other =>
    simp only [get_best_move, Option.some.injEq, Prod.mk.injEq] at h
    exact h.2.2.symm

end Abalone

namespace Abalone

def cfgW4 : AIConfig := ⟨[10000, 200, 10, 3, -250], .B, 3, fun _ _ => 0, 0⟩

def bW4 : Board := ⟨[((0, 0), ⟨.B⟩), ((3, -3), ⟨.W⟩)], [], 0, 0⟩

def stW4 : SearchState := ⟨0, 0, 0, 0, []⟩

def zeroClock : Nat → Rat := fun _ => 0

def idShuffle : Nat → List MoveData → List MoveData := fun _ l => l

unseal Rat.add Rat.sub Rat.mul Rat.inv Rat.ofScientific in
theorem C4_witness :
    get_best_move cfgW4 .Greedy [] zeroClock idShuffle 0 stW4 bW4 =
      some (some ⟨.inline, (1, 0), [(0, 0)], []⟩, ⟨0, 0, 0, 0, []⟩, bW4) ∧
    bW4 = bW4 := by
  have h : get_best_move cfgW4 .Greedy [] zeroClock idShuffle 0 stW4 bW4 =
      some (some ⟨.inline, (1, 0), [(0, 0)], []⟩, ⟨0, 0, 0, 0, []⟩, bW4) := by decide
  exact ⟨h, C4_search_preserves_live_board cfgW4 .Greedy [] zeroClock idShuffle 0 stW4
    bW4 _ _ _ h⟩

end Abalone

namespace Abalone

/-- Forget the wall-clock metric of a search state (the only field the
clock oracle can influence in `minimax_pure`). -/
def scrub (st : SearchState) : SearchState := { st with time_elapsed := 0 }

theorem scrub_pureClockSample (e : Nat → Rat) (st : SearchState) :
    scrub (pureClockSample e st) = scrub st := by
  unfold pureClockSample scrub
  split <;> rfl

theorem scrub_bump (st1 st2 : SearchState) (h : scrub st1 = scrub st2) :
    scrub { st1 with nodes_explored := st1.nodes_explored + 1 } =
    scrub { st2 with nodes_explored := st2.nodes_explored + 1 } := by
  have e1 : scrub { st1 with nodes_explored := st1.nodes_explored + 1 } =
      { scrub st1 with nodes_explored := (scrub st1).nodes_explored + 1 } := rfl
  have e2 : scrub { st2 with nodes_explored := st2.nodes_explored + 1 } =
      { scrub st2 with nodes_explored := (scrub st2).nodes_explored + 1 } := rfl
  rw [e1, e2, h]

theorem pureMaxLoop_congr
    (rec1 rec2 : MoveData → Board → SearchState → Option (XQ × SearchState))
    (hrec : ∀ mv b st1 st2, scrub st1 = scrub st2 →
      Option.map (fun p => (p.1, scrub p.2)) (rec1 mv b st1) =
      Option.map (fun p => (p.1, scrub p.2)) (rec2 mv b st2)) :
    ∀ (moves : List MoveData) (b : Board) (acc : XQ) (st1 st2 : SearchState),
      scrub st1 = scrub st2 →
      Option.map (fun p => (p.1, scrub p.2)) (pureMaxLoop rec1 moves b acc st1) =
      Option.map (fun p => (p.1, scrub p.2)) (pureMaxLoop rec2 moves b acc st2)
  | [], b, acc, st1, st2, h => by
    simp only [pureMaxLoop, Option.map_some']
    rw [h]
  | mv :: rest, b, acc, st1, st2, h => by
    cases happ : apply_move (cloneBoard b) mv with
    | none => simp [pureMaxLoop, happ]
    | some p =>
      obtain ⟨sim2, w⟩ := p
      simp only [pureMaxLoop, happ]
      have hr := hrec mv sim2 st1 st2 h
      cases h1 : rec1 mv sim2 st1 with
      | none =>
        rw [h1] at hr
        cases h2 : rec2 mv sim2 st2 with
        | none => simp [h1, h2]
        | some q => rw [h2] at hr; simp at hr
      | some q1 =>
        obtain ⟨v1, s1⟩ := q1
        rw [h1] at hr
        cases h2 : rec2 mv sim2 st2 with
        | none => rw [h2] at hr; simp at hr
        | some q2 =>
          obtain ⟨v2, s2⟩ := q2
          rw [h2] at hr
          simp only [Option.map_some', Option.some.injEq, Prod.mk.injEq] at hr
          obtain ⟨hv, hs⟩ := hr
          subst hv
          simp only [h1, h2]
          exact pureMaxLoop_congr rec1 rec2 hrec rest b (xmax acc v1) s1 s2 hs

theorem pureMinLoop_congr
    (rec1 rec2 : MoveData → Board → SearchState → Option (XQ × SearchState))
    (hrec : ∀ mv b st1 st2, scrub st1 = scrub st2 →
      Option.map (fun p => (p.1, scrub p.2)) (rec1 mv b st1) =
      Option.map (fun p => (p.1, scrub p.2)) (rec2 mv b st2)) :
    ∀ (moves : List MoveData) (b : Board) (acc : XQ) (st1 st2 : SearchState),
      scrub st1 = scrub st2 →
      Option.map (fun p => (p.1, scrub p.2)) (pureMinLoop rec1 moves b acc st1) =
      Option.map (fun p => (p.1, scrub p.2)) (pureMinLoop rec2 moves b acc st2)
  | [], b, acc, st1, st2, h => by
    simp only [pureMinLoop, Option.map_some']
    rw [h]
  | mv :: rest, b, acc, st1, st2, h => by
    cases happ : apply_move (cloneBoard b) mv with
    | none => simp [pureMinLoop, happ]
    | some p =>
      obtain ⟨sim2, w⟩ := p
      simp only [pureMinLoop, happ]
      have hr := hrec mv sim2 st1 st2 h
      cases h1 : rec1 mv sim2 st1 with
      | none =>
        rw [h1] at hr
        cases h2 : rec2 mv sim2 st2 with
        | none => simp [h1, h2]
        | some q => rw [h2] at hr; simp at hr
      | some q1 =>
        obtain ⟨v1, s1⟩ := q1
        rw [h1] at hr
        cases h2 : rec2 mv sim2 st2 with
        | none => rw [h2] at hr; simp at hr
        | some q2 =>
          obtain ⟨v2, s2⟩ := q2
          rw [h2] at hr
          simp only [Option.map_some', Option.some.injEq, Prod.mk.injEq] at hr
          obtain ⟨hv, hs⟩ := hr
          subst hv
          simp only [h1, h2]
          exact pureMinLoop_congr rec1 rec2 hrec rest b
            (if xlt v1 acc then v1 else acc) s1 s2 hs

theorem minimax_pure_clock_congr (cfg : AIConfig) (e1 e2 : Nat → Rat) :
    ∀ (d : Nat) (b : Board) (maximizing : Bool) (lm : Option MoveData)
      (st1 st2 : SearchState), scrub st1 = scrub st2 →
      Option.map (fun p => (p.1, scrub p.2))
        (minimax_pure cfg e1 d b maximizing lm st1) =
      Option.map (fun p => (p.1, scrub p.2))
        (minimax_pure cfg e2 d b maximizing lm st2)
  | 0, b, maximizing, lm, st1, st2, h => by
    have hst : scrub (pureClockSample e1
        { st1 with nodes_explored := st1.nodes_explored + 1 }) =
        scrub (pureClockSample e2
        { st2 with nodes_explored := st2.nodes_explored + 1 }) := by
      rw [scrub_pureClockSample, scrub_pureClockSample]
      exact scrub_bump st1 st2 h
    simp only [minimax_pure, Option.map_some']
    rw [hst]
  | Nat.succ dp, b, maximizing, lm, st1, st2, h => by
    have hst : scrub (pureClockSample e1
        { st1 with nodes_explored := st1.nodes_explored + 1 }) =
        scrub (pureClockSample e2
        { st2 with nodes_explored := st2.nodes_explored + 1 }) := by
      rw [scrub_pureClockSample, scrub_pureClockSample]
      exact scrub_bump st1 st2 h
    simp only [minimax_pure]
    repeat' split
    all_goals first
      | (simp only [Option.map_some']; rw [hst])
      | exact pureMaxLoop_congr _ _
          (fun mv b2 t1 t2 ht =>
            minimax_pure_clock_congr cfg e1 e2 dp b2 false (some mv) t1 t2 ht)
          _ b .negInf _ _ hst
      | exact pureMinLoop_congr _ _
          (fun mv b2 t1 t2 ht =>
            minimax_pure_clock_congr cfg e1 e2 dp b2 true (some mv) t1 t2 ht)
          _ b .posInf _ _ hst

end Abalone

namespace Abalone

def cfgC5 : AIConfig := ⟨[10000, 100, 20, 50, -50], .B, 3, fun _ _ => 0, 0⟩

def bC5 : Board := ⟨[((0, 0), ⟨.B⟩), ((3, -3), ⟨.W⟩)], [], 0, 0⟩

def stC5 : SearchState := ⟨99, 0, 0, 0, []⟩

def elapsedBigC5 : Nat → Rat := fun _ => 1000

def elapsedZeroC5 : Nat → Rat := fun _ => 0

unseal Rat.add Rat.sub Rat.mul Rat.inv Rat.ofScientific in
set_option maxRecDepth 100000 in
set_option maxHeartbeats 4000000 in
/-- C5 counterexample: a `minimax_pure` call whose very first explored node
hits the every-100-nodes clock sample with the budget already blown
(`time_limit = 3`, clock reads `1000`) still explores the full 43-node
depth-2 tree and returns the complete minimax value `200` — exactly the
value and node count produced under a clock that never exceeds the budget.
The recursion never aborts and never unwinds with a partial value. -/
theorem C5_counterexample :
    cfgC5.time_limit < elapsedBigC5 100 ∧
    (stC5.nodes_explored + 1) % 100 = 0 ∧
    minimax_pure cfgC5 elapsedBigC5 2 bC5 true none stC5 =
      some (.fin 200, ⟨142, 1000, 0, 0, []⟩) ∧
    minimax_pure cfgC5 elapsedZeroC5 2 bC5 true none stC5 =
      some (.fin 200, ⟨142, 0, 0, 0, []⟩) := by
  refine ⟨by decide, by decide, by decide, by decide⟩

/-- C5 (amended): inside the recursion, `minimax_pure` samples the clock
once every 100 explored nodes but uses it only to refresh the elapsed-time
metric (and drive the UI progress callback); the comparison against the
budget ends in `pass`, so the returned value and every other metric are
independent of the clock. The time budget is enforced only once per outer
root move, in the iterative-deepening driver. -/
theorem C5_recursion_never_aborts (cfg : AIConfig) (e1 e2 : Nat → Rat) (d : Nat)
    (b : Board) (maximizing : Bool) (lm : Option MoveData) (st : SearchState) :
    Option.map (fun p => (p.1, scrub p.2)) (minimax_pure cfg e1 d b maximizing lm st) =
    Option.map (fun p => (p.1, scrub p.2)) (minimax_pure cfg e2 d b maximizing lm st) :=
  minimax_pure_clock_congr cfg e1 e2 d b maximizing lm st st rfl

def cfgC6 : AIConfig := ⟨[10000, 200, 10, 3, -250], .W, 5, fun _ _ => 0, 0⟩

def bC6 : Board := ⟨[((0, 0), ⟨.W⟩), ((3, -3), ⟨.B⟩)], [], 0, 0⟩

def stC6 : SearchState := ⟨0, 0, 0, 0, []⟩

def clockC6 : Nat → Rat := fun _ => 0

unseal Rat.add Rat.sub Rat.mul Rat.inv Rat.ofScientific in
set_option maxRecDepth 100000 in
set_option maxHeartbeats 4000000 in
/-- C6: at a maximizing node entered with the full window
`(-inf, +inf)`, whose final value `12` is strictly inside that original
window, `minimax_ab` stores a transposition-table entry flagged `upper`,
not `exact`: the store compares `max_eval` against the loop-updated
`alpha` (which is always `>= max_eval` after the loop) instead of the
window the node was entered with. -/
theorem C6_flag_upper_despite_interior_value :
    minimax_ab cfgC6 clockC6 1 bC6 .negInf .posInf true none stC6 =
      some (.fin 12, ⟨13, 0, 0, 0, [(0, ⟨.fin 12, 1, .upper⟩)]⟩) ∧
    xlt .negInf (.fin 12) = true ∧ xlt (.fin 12) .posInf = true ∧
    ttGet ((⟨13, 0, 0, 0, [(0, ⟨.fin 12, 1, .upper⟩)]⟩ : SearchState)).tt
        (getStateKey cfgC6 bC6 true) = some ⟨.fin 12, 1, .upper⟩ := by
  refine ⟨by decide, by decide, by decide, by decide⟩

end Abalone
